import Mathlib

/-!
Verification of the CAST extension (same-origin crawler + RAG analysis pipeline).

This file gives a shallow embedding of the JavaScript source
(`background.js`, the RAG module, `content/crawler.js`) in Lean 4 and proves
or refutes the frozen specification claims about it.

Modelling conventions, used throughout:

* JS numbers that are used as exact integers are `Nat`; confidences and
  similarity scores are `ℚ`/`ℝ`.  IEEE-754 rounding is out of scope; the mean
  of every arithmetic claim here is comparisons and counting, not float bits.
* JS strings are Lean `String`s.  `String.prototype.slice(0, n)` is `take n`
  (code-unit vs. code-point differences are irrelevant to every claim).
  `toLowerCase` is mapped to a per-character `Char.toLower` (`lowerStr`);
  the case-insensitive regexes of the source are alternations of string
  literals, modelled as case-insensitive substring tests.
* `JSON.stringify` of the string-valued records appearing in the source is
  implemented as an explicit serializer (`jsonObj`, `payloadJson`).
* JS `Set` is an insertion-ordered duplicate-free list (`setAdd`); JS `Map`
  is an insertion-ordered association list (`mapSet` keeps the position of an
  existing key, as `Map.prototype.set` does).
* `Array.prototype.sort` with a comparator derived from a total preorder is a
  stable sort (ES2019); any stable sort agrees with insertion sort, so sorts
  are modelled with `List.insertionSort`.  `localeCompare` on the ASCII keys
  appearing here agrees with the `String` linear order.
* Loops whose JS termination argument is a strictly shrinking array are
  written with an explicit fuel argument so that all definitions reduce
  inside the kernel; each call site passes fuel that provably suffices.
* The browser `URL` object is modelled by the record `ParsedUrl`; `new URL`
  parsing of the collaborator is treated as the identity on the record (its
  port/credentials components are folded into `host`).
-/

set_option maxHeartbeats 1000000

/-! ## Generic string helpers -/

/-- Lower-case a string character by character (models `toLowerCase` on the
ASCII identifiers the source compares). -/
def lowerStr (s : String) : String := ⟨s.data.map Char.toLower⟩

/-- Substring occurrence test on character lists. -/
def strContainsAux : List Char → List Char → Bool
  | [], pat => pat.isEmpty
  | c :: t, pat => pat.isPrefixOf (c :: t) || strContainsAux t pat

/-- Models `String.prototype.includes`. -/
def strContains (s pat : String) : Bool := strContainsAux s.data pat.data

/-- Models a case-insensitive regex that is an alternation of literals:
the regex matches iff some literal occurs in the lower-cased subject. -/
def patternTest (pats : List String) (s : String) : Bool :=
  pats.any fun p => strContains (lowerStr s) p

/-- JSON escaping for one character (the records serialized by the source
contain no control characters; quote and backslash are the escapes that
affect lengths). -/
def jsonEscapeChar (c : Char) : String :=
  if c = '"' then "\\\"" else if c = '\\' then "\\\\" else String.singleton c

/-- JSON escaping of a string body. -/
def jsonEscape (s : String) : String := String.join (s.data.map jsonEscapeChar)

/-- A JSON string literal. -/
def jsonStr (s : String) : String := "\"" ++ jsonEscape s ++ "\""

/-- Models `JSON.stringify` of a string-valued object such as `queryParams`. -/
def jsonObj (kvs : List (String × String)) : String :=
  "\x7b" ++ String.intercalate "," (kvs.map fun kv => jsonStr kv.1 ++ ":" ++ jsonStr kv.2) ++ "\x7d"

/-- A JSON array from already-serialized members. -/
def jsonArr (xs : List String) : String := "[" ++ String.intercalate "," xs ++ "]"

/-- Models adding to a JS `Set`: insertion-ordered, duplicate free. -/
def setAdd (s : List String) (x : String) : List String :=
  if x ∈ s then s else s ++ [x]

/-- Fold `setAdd` over a list of new elements. -/
def setAddAll (s : List String) (xs : List String) : List String := xs.foldl setAdd s

/-- Models `Number.prototype.toFixed(2)`, kept as the rounded rational rather
than its decimal rendering. -/
def toFixed2 (q : ℚ) : ℚ := (round (q * 100) : ℤ) / 100

/-! ## URL model and `normalizeUrl` (background.js 26–39) -/

/-- The components of a parsed `URL` object that the source reads or writes:
scheme, host (with port, if any), path, the ordered query-parameter list
(`searchParams` preserves textual order), and the optional fragment. -/
structure ParsedUrl where
  scheme : String
  host : String
  path : String
  params : List (String × String)
  fragment : Option String
deriving DecidableEq

/-- Models `URL.prototype.origin` (scheme://host, port folded into host). -/
def urlOrigin (u : ParsedUrl) : String := u.scheme ++ "://" ++ u.host

/-- Serialization of the query component. -/
def serializeQuery (params : List (String × String)) : String :=
  if params.isEmpty then ""
  else "?" ++ String.intercalate "&" (params.map fun kv => kv.1 ++ "=" ++ kv.2)

/-- Models `URL.prototype.href`. -/
def serializeUrl (u : ParsedUrl) : String :=
  urlOrigin u ++ u.path ++ serializeQuery u.params ++
    (match u.fragment with
     | none => ""
     | some f => "#" ++ f)

/-- Lexicographic comparison of character lists by code point.  This is the
total preorder induced by the `localeCompare` comparator on the keys the
source sorts (on ASCII keys locale collation agrees with code-point
order). -/
def charListLe : List Char → List Char → Bool
  | [], _ => true
  | _ :: _, [] => false
  | a :: as, b :: bs =>
    if a < b then true
    else if b < a then false
    else charListLe as bs

/-- Key comparison for the query-parameter sort. -/
def keyLe (a b : String) : Bool := charListLe a.data b.data

/-- The stable sort of `searchParams.entries()` by key used in `normalizeUrl`:
`params.sort((a, b) => a[0].localeCompare(b[0]))`. -/
def sortParams (params : List (String × String)) : List (String × String) :=
  params.insertionSort (fun a b => keyLe a.1 b.1 = true)

/-- Models `normalizeUrl` (background.js 26–39) at the URL-record level:
clear the fragment, stably sort the query parameters by key, rebuild. -/
def normalizeUrl (u : ParsedUrl) : ParsedUrl :=
  { u with fragment := none, params := sortParams u.params }

/-- The string the source's `normalizeUrl` returns (`u.href` after the edits). -/
def normalizeUrlHref (u : ParsedUrl) : String := serializeUrl (normalizeUrl u)

/-! ## Crawl scheduler state (background.js globals, 1812–2267) -/

/-- A queued crawl task: `{url, depth}`. -/
structure CrawlTask where
  url : ParsedUrl
  depth : ℕ
deriving DecidableEq

/-- The scheduler's mutable state: the module-scope globals of background.js
that the crawl loop reads and writes (`visited` and `allDiscoveredLinks` are
JS `Set`s of normalized URL strings, modelled as duplicate-free lists). -/
structure CrawlState where
  crawlActive : Bool
  maxDepth : ℕ
  pageLimit : Option ℕ
  origin : String
  visited : List String
  allDiscoveredLinks : List String
  queue : List CrawlTask
  currentTask : Option CrawlTask
deriving DecidableEq

/-- Status string of the crawl-deactivated exit of `processNext` (line 1929). -/
def crawlStoppedStatus : String := "Crawl stopped."

/-- Status string of the page-limit exit of `processNext` (line 1941). -/
def pageLimitStatus (v l : ℕ) : String :=
  "Crawl complete: reached page limit (" ++ toString v ++ "/" ++ toString l ++ " pages)."

/-- Status string of the queue-empty exit of `processNext` (line 1960). -/
def queueEmptyStatus (v : ℕ) : String :=
  "Crawl complete. Visited " ++ toString v ++ " pages."

/-- The guard `pageLimit && visited.size >= pageLimit` (line 1934): a JS
number is truthy iff nonzero, so a limit of `some 0` behaves like `none`. -/
def pageLimitReached (st : CrawlState) : Bool :=
  match st.pageLimit with
  | some l => decide (0 < l) && decide (l ≤ st.visited.length)
  | none => false

/-- Result of one `processNext` iteration: the crawl halts with a status
string, or the dequeued task is skipped and the loop re-enters
(`setTimeout(() => processNext(), 0)`), or the task proceeds to
navigation/scan. -/
inductive StepResult where
  | halted (status : String) (st : CrawlState)
  | skip (st : CrawlState)
  | visit (task : CrawlTask) (st : CrawlState)
deriving DecidableEq

/-- Models `processNext` (background.js 1920–2036) up to the hand-off to
navigation: the three termination checks in source order, the dequeue, the
visited/depth skip checks, and the `visited.add`/`currentTask` update of the
visit path.  The `!task || !task.url` guard has no counterpart because a
`CrawlTask` always carries a URL value, and `normalizeUrl` never throws. -/
def processNext (st : CrawlState) : StepResult :=
  if ¬ st.crawlActive then .halted crawlStoppedStatus st
  else if pageLimitReached st then
    .halted (pageLimitStatus st.visited.length (st.pageLimit.getD 0))
      { st with crawlActive := false }
  else
    match st.queue with
    | [] => .halted (queueEmptyStatus st.visited.length) { st with crawlActive := false }
    | task :: rest =>
      let normalized := normalizeUrlHref task.url
      if normalized ∈ st.visited then .skip { st with queue := rest }
      else if st.maxDepth < task.depth then .skip { st with queue := rest }
      else .visit task
        { st with queue := rest,
                  visited := st.visited ++ [normalized],
                  currentTask := some task }

/-- The `page-scanned` message sent back by the content script: the scanned
page's URL, the depth echoed from the scan command, and the discovered links
(absolute URLs, given here already parsed). -/
structure ScanMsg where
  url : ParsedUrl
  depth : ℕ
  internalLinks : List ParsedUrl

/-- The acceptance guard of `handlePageScanned` (background.js 2187–2206):
with no current task the message is processed; otherwise it must match the
task's normalized URL or at least share its origin (redirect tolerance). -/
def acceptScan (st : CrawlState) (msg : ScanMsg) : Bool :=
  match st.currentTask with
  | none => true
  | some t =>
    if normalizeUrlHref msg.url = normalizeUrlHref t.url then true
    else decide (urlOrigin msg.url = urlOrigin t.url)

/-- The link-discovery fold of `handlePageScanned` (background.js 2220–2238):
same-origin links that are neither already discovered nor visited are indexed
into `allDiscoveredLinks` immediately and appended to `newLinks` at depth
`depth + 1`. -/
def collectNewLinks (origin : String) (depth : ℕ) (visited : List String) :
    List String → List CrawlTask → List ParsedUrl → List String × List CrawlTask
  | discovered, acc, [] => (discovered, acc)
  | discovered, acc, u :: rest =>
    if urlOrigin u = origin then
      let normalized := normalizeUrlHref u
      if normalized ∉ discovered ∧ normalized ∉ visited then
        collectNewLinks origin depth visited (discovered ++ [normalized])
          (acc ++ [⟨u, depth + 1⟩]) rest
      else collectNewLinks origin depth visited discovered acc rest
    else collectNewLinks origin depth visited discovered acc rest

/-- The stable queue sort `queue.sort((a, b) => a.depth - b.depth)`
(background.js 2244). -/
def sortByDepth (q : List CrawlTask) : List CrawlTask :=
  q.insertionSort (fun a b => a.depth ≤ b.depth)

/-- Models `handlePageScanned` (background.js 2182–2267): guard, link
discovery and enqueue when `depth < maxDepth`, queue re-sort by depth when
links were added, and clearing of the current task (folded into each branch;
the source clears it once at the end).  The `logs` bookkeeping and status
notifications carry no claim-relevant state and are omitted. -/
def handlePageScanned (st : CrawlState) (msg : ScanMsg) : CrawlState :=
  if ¬ acceptScan st msg then st
  else if msg.depth < st.maxDepth ∧ ¬ msg.internalLinks.isEmpty then
    match collectNewLinks st.origin msg.depth st.visited st.allDiscoveredLinks []
      msg.internalLinks with
    | (discovered, newLinks) =>
      if ¬ newLinks.isEmpty then
        { st with allDiscoveredLinks := discovered,
                  queue := sortByDepth (st.queue ++ newLinks), currentTask := none }
      else { st with allDiscoveredLinks := discovered, currentTask := none }
  else { st with currentTask := none }

/-- Models the state reset of `startCrawl` (background.js 1818–1828): seed
task at depth 1, empty visited set, discovery index seeded with the
normalized seed URL. -/
def startCrawl (u : ParsedUrl) (maxDepth : ℕ) (pageLimit : Option ℕ) : CrawlState :=
  { crawlActive := true
    maxDepth := maxDepth
    pageLimit := pageLimit
    origin := urlOrigin u
    visited := []
    allDiscoveredLinks := [normalizeUrlHref u]
    queue := [⟨u, 1⟩]
    currentTask := none }

/-! ## Batch splitting (processBatchesDirect, background.js 790–822) -/

/-- A captured network call, with the fields the batching code reads.
`queryParams` is the string-valued parameter object; `postData` is the body
when present (`JSON.stringify` of a non-string body is its string form). -/
structure NetworkCall where
  url : String
  method : String
  host : String
  pathname : String
  pageUrl : String
  queryParams : List (String × String)
  postData : Option String
deriving DecidableEq

/-- The per-call size estimate of the splitting loop (background.js 798–802):
url length + method length + stringified query length + post-body length. -/
def callSize (call : NetworkCall) : ℕ :=
  call.url.length + call.method.length + (jsonObj call.queryParams).length +
    (match call.postData with
     | some s => s.length
     | none => 0)

/-- Models `Math.ceil(callSize / 4)` (background.js 803). -/
def callTokens (call : NetworkCall) : ℕ := (callSize call + 3) / 4

/-- The per-batch soft ceiling (background.js 790). -/
def MAX_TOKENS_PER_BATCH : ℕ := 100000

/-- The fixed system-prompt overhead (background.js 793). -/
def baseOverhead : ℕ := 2000

/-- The greedy splitting loop of `processBatchesDirect` (background.js
796–820): close the current batch and start a new one when the next call
would push the running estimate plus overhead past the ceiling and the
current batch is nonempty; otherwise append to the current batch.  The
trailing nonempty batch is pushed after the loop. -/
def splitLoop : List NetworkCall → List (List NetworkCall) → List NetworkCall → ℕ →
    List (List NetworkCall)
  | [], batches, current, _ =>
    batches ++ (if current.isEmpty then [] else [current])
  | c :: rest, batches, current, curTokens =>
    if MAX_TOKENS_PER_BATCH < curTokens + callTokens c + baseOverhead ∧ ¬ current.isEmpty then
      splitLoop rest (batches ++ [current]) [c] (callTokens c)
    else
      splitLoop rest batches (current ++ [c]) (curTokens + callTokens c)

/-- The batch partition `processBatchesDirect` constructs from its input. -/
def splitIntoBatches (calls : List NetworkCall) : List (List NetworkCall) :=
  splitLoop calls [] [] 0

/-- The summed token estimate of a batch. -/
def batchTokens (batch : List NetworkCall) : ℕ := (batch.map callTokens).sum

/-! ## Payload serialization and trimming (background.js 628–757) -/

/-- A request entry of a built batch payload (background.js 681–688). -/
structure PayloadRequest where
  url : String
  method : String
  host : String
  pathname : String
  queryParams : List (String × String)
  postData : Option String
deriving DecidableEq

/-- A page grouping of a built batch payload. -/
structure PayloadPage where
  pageUrl : String
  requests : List PayloadRequest
deriving DecidableEq

/-- The payload summary (background.js 637–641). -/
structure PayloadSummary where
  totalCalls : ℕ
  analyticsCalls : ℕ
  otherCalls : ℕ
deriving DecidableEq

/-- A batch payload: `{pages, summary}`.  The `estimatedTokens` field that
`buildBatchPayload` adds only shifts every serialized length by the same
request-independent amount and is not carried here; no claim depends on the
numeric token estimates. -/
structure BatchPayload where
  pages : List PayloadPage
  summary : PayloadSummary
deriving DecidableEq

/-- The analytics host pattern of background.js 633/715 (alternation of
literals, case-insensitive). -/
def analyticsPatternParts : List String :=
  ["google-analytics", "analytics.google", "googletagmanager", "gtag", "gtm",
   "segment", "mixpanel", "amplitude", "hotjar", "clarity", "hubspot"]

/-- Serialization of one payload request, mirroring `JSON.stringify` field
order. -/
def requestJson (r : PayloadRequest) : String :=
  "\x7b" ++ jsonStr "url" ++ ":" ++ jsonStr r.url ++ "," ++
    jsonStr "method" ++ ":" ++ jsonStr r.method ++ "," ++
    jsonStr "host" ++ ":" ++ jsonStr r.host ++ "," ++
    jsonStr "pathname" ++ ":" ++ jsonStr r.pathname ++ "," ++
    jsonStr "queryParams" ++ ":" ++ jsonObj r.queryParams ++ "," ++
    jsonStr "postData" ++ ":" ++
    (match r.postData with
     | some s => jsonStr s
     | none => "null") ++ "\x7d"

/-- Serialization of one payload page. -/
def pageJson (p : PayloadPage) : String :=
  "\x7b" ++ jsonStr "pageUrl" ++ ":" ++ jsonStr p.pageUrl ++ "," ++
    jsonStr "requests" ++ ":" ++ jsonArr (p.requests.map requestJson) ++ "\x7d"

/-- Serialization of the summary. -/
def summaryJson (s : PayloadSummary) : String :=
  "\x7b" ++ jsonStr "totalCalls" ++ ":" ++ toString s.totalCalls ++ "," ++
    jsonStr "analyticsCalls" ++ ":" ++ toString s.analyticsCalls ++ "," ++
    jsonStr "otherCalls" ++ ":" ++ toString s.otherCalls ++ "\x7d"

/-- Models `JSON.stringify(payload)`. -/
def payloadJson (p : BatchPayload) : String :=
  "\x7b" ++ jsonStr "pages" ++ ":" ++ jsonArr (p.pages.map pageJson) ++ "," ++
    jsonStr "summary" ++ ":" ++ summaryJson p.summary ++ "\x7d"

/-- Models `estimateTokensForPayload` (background.js 705–707):
`Math.ceil(JSON.stringify(payload).length / 4)`. -/
def estimateTokensForPayload (p : BatchPayload) : ℕ := ((payloadJson p).length + 3) / 4

/-- Models `updatePayloadSummary` (background.js 709–727). -/
def updatePayloadSummary (p : BatchPayload) : BatchPayload :=
  let counted := p.pages.foldl
    (fun acc page => page.requests.foldl
      (fun acc2 r =>
        if patternTest analyticsPatternParts r.host then
          (acc2.1 + 1, acc2.2.1 + 1, acc2.2.2)
        else (acc2.1 + 1, acc2.2.1, acc2.2.2 + 1))
      acc)
    (0, 0, 0)
  { p with summary := ⟨counted.1, counted.2.1, counted.2.2⟩ }

/-- The page-dropping loop of `trimPayloadToLimit` (background.js 738–742):
pop pages from the end while more than one page remains and the estimate is
above the budget.  Fuel bounds the iterations; `pages.length` suffices. -/
def trimPagesLoop : ℕ → BatchPayload → ℕ → List PayloadPage → List PayloadPage
  | 0, _, _, pages => pages
  | fuel + 1, payload, maxTokens, pages =>
    if 1 < pages.length ∧ maxTokens < estimateTokensForPayload { payload with pages := pages } then
      trimPagesLoop fuel payload maxTokens pages.dropLast
    else pages

/-- The request-dropping loop of `trimPayloadToLimit` (background.js
747–751): pop requests of the sole remaining page while more than one
request remains and the estimate is above the budget. -/
def trimRequestsLoop : ℕ → BatchPayload → ℕ → PayloadPage → PayloadPage
  | 0, _, _, page => page
  | fuel + 1, payload, maxTokens, page =>
    if 1 < page.requests.length ∧
        maxTokens < estimateTokensForPayload { payload with pages := [page] } then
      trimRequestsLoop fuel payload maxTokens { page with requests := page.requests.dropLast }
    else page

/-- Models `trimPayloadToLimit` (background.js 729–757): return unchanged
when the pages list is empty or the payload already fits; otherwise drop
whole pages from the end, then requests of the last surviving page, and
recompute the summary. -/
def trimPayloadToLimit (payload : BatchPayload) (maxTokens : ℕ) : BatchPayload :=
  if payload.pages.isEmpty then payload
  else if estimateTokensForPayload payload ≤ maxTokens then payload
  else
    let pages := trimPagesLoop payload.pages.length payload maxTokens payload.pages
    let result :=
      if maxTokens < estimateTokensForPayload { payload with pages := pages } ∧
          pages.length = 1 then
        match pages with
        | [page] =>
          { payload with pages := [trimRequestsLoop page.requests.length payload maxTokens page] }
        | _ => { payload with pages := pages }
      else { payload with pages := pages }
    updatePayloadSummary result

/-! ## Result consolidation (background.js 430–492) -/

/-- A raw per-batch tech-stack classification record.  `Number(x) || 0`
coercion of a malformed confidence is modelled by the field being a rational
already; a missing field is the empty string / empty list. -/
structure TechRecord where
  name : String
  category : String
  confidence : ℚ
  evidence : List String
deriving DecidableEq

/-- The in-progress merged entry held in the dedup map (background.js
444–456), with `evidence` as an insertion-ordered set. -/
structure TechEntry where
  name : String
  category : String
  confidence : ℚ
  evidence : List String
  occurrences : ℕ
deriving DecidableEq

/-- A consolidated tech record as returned by `dedupeTechRecords`
(background.js 458–464); `confidence` keeps the `toFixed(2)` rounding as a
rational. -/
structure TechOut where
  name : String
  category : String
  confidence : ℚ
  occurrences : ℕ
  evidence : String
deriving DecidableEq

/-- A raw analytics-event record; JS `null` fields are keyed and stored as
`''`, so they are total strings here. -/
structure AnalyticsRecord where
  provider : String
  event_name : String
  page_url : String
  request_url : String
  notes : String
deriving DecidableEq

/-- A consolidated analytics record as returned by
`dedupeAnalyticsRecords`. -/
structure AnalyticsOut where
  provider : String
  event_name : String
  page_url : String
  request_url : String
  notes : String
  occurrences : ℕ
deriving DecidableEq

/-- The tech dedup key (background.js 433). -/
def techKey (r : TechRecord) : String := lowerStr r.name ++ "|" ++ lowerStr r.category

/-- The analytics dedup key (background.js 470–476): provider, event name,
page URL, request URL and notes, lower-cased and pipe-joined. -/
def analyticsKey (r : AnalyticsRecord) : String :=
  String.intercalate "|"
    [lowerStr r.provider, lowerStr r.event_name, lowerStr r.page_url,
     lowerStr r.request_url, lowerStr r.notes]

/-- Lookup in the insertion-ordered map model. -/
def mapFind (m : List (String × ε)) (k : String) : Option ε :=
  (m.find? fun p => p.1 = k).map Prod.snd

/-- Models `Map.prototype.set`: an existing key keeps its position, a new
key is appended. -/
def mapSet (m : List (String × ε)) (k : String) (v : ε) : List (String × ε) :=
  if (m.find? fun p => p.1 = k).isSome then
    m.map fun p => if p.1 = k then (k, v) else p
  else m ++ [(k, v)]

/-- The truthy-evidence filter `evidenceItems.filter(Boolean)`. -/
def evidenceFiltered (r : TechRecord) : List String := r.evidence.filter fun e => ¬ e.isEmpty

/-- The entry created for a tech record first seen (background.js 444–450). -/
def techInit (r : TechRecord) : TechEntry :=
  ⟨r.name, r.category, r.confidence, setAddAll [] (evidenceFiltered r), 1⟩

/-- The merge of another tech record into an existing entry (background.js
452–455): max confidence, evidence union, occurrence count bump. -/
def techMerge (e : TechEntry) (r : TechRecord) : TechEntry :=
  ⟨e.name, e.category, max e.confidence r.confidence,
    setAddAll e.evidence (evidenceFiltered r), e.occurrences + 1⟩

/-- One iteration of the `dedupeTechRecords` loop. -/
def techStep (m : List (String × TechEntry)) (item : TechRecord) :
    List (String × TechEntry) :=
  match mapFind m (techKey item) with
  | none => mapSet m (techKey item) (techInit item)
  | some e => mapSet m (techKey item) (techMerge e item)

/-- Models `dedupeTechRecords` (background.js 430–465). -/
def dedupeTechRecords (records : List TechRecord) : List TechOut :=
  (records.foldl techStep []).map fun p =>
    ⟨p.2.name, p.2.category, toFixed2 p.2.confidence, p.2.occurrences,
      String.intercalate " | " p.2.evidence⟩

/-- The entry created for an analytics record first seen (background.js
478–485). -/
def analyticsInit (r : AnalyticsRecord) : AnalyticsOut :=
  ⟨r.provider, r.event_name, r.page_url, r.request_url, r.notes, 1⟩

/-- One iteration of the `dedupeAnalyticsRecords` loop (background.js
469–489): a repeated key only bumps the occurrence count. -/
def analyticsStep (m : List (String × AnalyticsOut)) (item : AnalyticsRecord) :
    List (String × AnalyticsOut) :=
  match mapFind m (analyticsKey item) with
  | none => mapSet m (analyticsKey item) (analyticsInit item)
  | some e => mapSet m (analyticsKey item) { e with occurrences := e.occurrences + 1 }

/-- Models `dedupeAnalyticsRecords` (background.js 467–492). -/
def dedupeAnalyticsRecords (records : List AnalyticsRecord) : List AnalyticsOut :=
  (records.foldl analyticsStep []).map Prod.snd

/-! ## Embedding signatures and indexing (RAG module 397–532) -/

/-- The request fields the RAG module keeps per call (its `requestData`). -/
structure RequestData where
  host : String
  pathname : String
  method : String
  queryParams : List (String × String)
  postData : Option String
deriving DecidableEq, Inhabited

/-- Models `getRequestSignature` (RAG module 397–403): host, path, method,
stringified query and a 200-character post-body preview, concatenated. -/
def getRequestSignature (r : RequestData) : String :=
  r.host ++ r.pathname ++ r.method ++ jsonObj r.queryParams ++
    (match r.postData with
     | some s => s.take 200
     | none => "")

/-- The analytics pattern of the RAG module (line 446). -/
def ragAnalyticsPattern : List String :=
  ["google-analytics", "analytics.google", "googletagmanager", "gtag", "gtm",
   "segment", "mixpanel", "amplitude", "hotjar", "clarity", "hubspot", "adroll",
   "facebook", "meta", "tiktok", "linkedin", "twitter", "pinterest", "reddit",
   "quora", "bing", "microsoft", "sentry", "datadog", "newrelic", "fullstory",
   "heap", "pendo", "optimizely", "vwo", "ab-tasty", "doubleclick",
   "googleadservices", "googlesyndication"]

/-- The tech-stack pattern of the RAG module (line 447). -/
def ragTechPattern : List String :=
  ["vercel", "netlify", "cloudflare", "aws", "azure", "gcp", "fastly", "akamai",
   "cloudfront", "contentful", "wordpress", "shopify", "sanity", "strapi",
   "prismic", "drupal", "squarespace", "wix", "webflow", "nextjs", "react",
   "vue", "angular", "svelte", "nuxt", "gatsby"]

/-- A stored embedding record, reduced to the fields the idempotency claim
reads (the id is random and the vector comes from the external embedder). -/
structure EmbeddingRecord where
  sessionId : String
  requestData : RequestData
deriving DecidableEq

/-- Models `getExistingEmbeddings` (RAG module 406–429): the signatures of
the session's stored records (a JS `Set`, used only for membership). -/
def existingSignaturesOf (store : List EmbeddingRecord) (sessionId : String) : List String :=
  (store.filter fun r => r.sessionId = sessionId).map fun r => getRequestSignature r.requestData

/-- The request-selection loop of `processNetworkCalls` (RAG module
449–480): a call is considered when it matches the analytics or tech pattern
on host or path, or while fewer than 5000 requests are selected; a considered
call is kept only when its signature is not among the existing signatures.
The accumulator mirrors `requestsToProcess`. -/
def selectRequests (existing : List String) :
    List RequestData → List RequestData → List RequestData
  | acc, [] => acc
  | acc, call :: rest =>
    let isAnalytics := patternTest ragAnalyticsPattern call.host ||
      patternTest ragAnalyticsPattern call.pathname
    let isTechStack := patternTest ragTechPattern call.host ||
      patternTest ragTechPattern call.pathname
    if isAnalytics || isTechStack || decide (acc.length < 5000) then
      if getRequestSignature call ∈ existing then selectRequests existing acc rest
      else selectRequests existing (acc ++ [call]) rest
    else selectRequests existing acc rest

/-- The store after one `processNetworkCalls` invocation in which every
embedding call succeeds: each selected request is embedded and stored
(RAG module 497–529). -/
def processNetworkCallsStore (store : List EmbeddingRecord) (calls : List RequestData)
    (sessionId : String) : List EmbeddingRecord :=
  store ++ (selectRequests (existingSignaturesOf store sessionId) [] calls).map
    fun r => ⟨sessionId, r⟩

/-- The count of a session's records with a given signature. -/
def sigCount (store : List EmbeddingRecord) (sessionId sig : String) : ℕ :=
  (store.filter fun r =>
    decide (r.sessionId = sessionId) && decide (getRequestSignature r.requestData = sig)).length

/-! ## Gemini retry loop (background.js 2498–2661, 825–888) -/

/-- Outcome of one attempt of the external completion call: a parsed result
or a thrown error with its message (transport and parse failures alike). -/
inductive CallOutcome (ρ : Type) where
  | ok (r : ρ)
  | err (msg : String)
deriving DecidableEq

/-- The fixed attempt count (background.js 2499). -/
def MAX_RETRIES : ℕ := 3

/-- The network-error test of background.js 2651. -/
def isNetworkErrorMsg (msg : String) : Bool :=
  strContains msg "Failed to fetch" || strContains msg "NetworkError"

/-- The backoff before retry `attempt + 1` (background.js 2652):
`2000 * attempt` for network-class errors, `500 * attempt` otherwise. -/
def backoffDelay (msg : String) (attempt : ℕ) : ℕ :=
  (if isNetworkErrorMsg msg then 2000 else 500) * attempt

/-- Models `callGemini` (background.js 2498–2661) over an oracle giving each
attempt's outcome, returning the result together with the list of backoff
delays slept.  Fuel bounds the recursion; `MAX_RETRIES` suffices since the
code retries only while `attempt < MAX_RETRIES`. -/
def callGeminiF (outcomes : ℕ → CallOutcome ρ) : ℕ → ℕ → Except String ρ × List ℕ
  | _, 0 => (.error "no attempt", [])
  | fuel, attempt + 1 =>
    match outcomes (attempt + 1) with
    | .ok r => (.ok r, [])
    | .err m =>
      if MAX_RETRIES ≤ attempt + 1 then
        (.error ("Gemini request failed after " ++ toString MAX_RETRIES ++ " attempts: " ++ m), [])
      else
        match fuel with
        | 0 => (.error m, [])
        | fuel' + 1 =>
          let rec_ := callGeminiF outcomes fuel' (attempt + 2)
          (rec_.1, backoffDelay m (attempt + 1) :: rec_.2)

/-- `callGemini` entered at attempt 1, as `processBatchesDirect` calls it. -/
def callGemini (outcomes : ℕ → CallOutcome ρ) : Except String ρ × List ℕ :=
  callGeminiF outcomes MAX_RETRIES 1

/-- The per-batch try/catch of the batch loop (background.js 837–887): a
batch whose end-to-end processing failed is logged and skipped, every later
batch is still processed, and the stored results are the successes in
order. -/
def runBatches : List (Except String ρ) → List ρ
  | [] => []
  | .ok r :: rest => r :: runBatches rest
  | .error _ :: rest => runBatches rest

/-! ## Bounded min-heap and streaming top-K search (RAG module 6–52, 298–368) -/

/-- A heap entry: the spread record together with its computed similarity
(`{...record, similarity}`, RAG module 335). -/
structure HeapItem (α β : Type) where
  payload : α
  similarity : β
deriving DecidableEq

instance [Inhabited α] [Inhabited β] : Inhabited (HeapItem α β) := ⟨⟨default, default⟩⟩

/-- The `MinHeap` object: backing array and capacity. -/
structure MinHeap (α β : Type) where
  heap : List (HeapItem α β)
  maxSize : ℕ

section HeapDefs

variable {α β : Type} [LinearOrder β] [Inhabited α] [Inhabited β]

/-- Array indexing `heap[i]` (always in bounds at the source's call sites). -/
def atI (h : List (HeapItem α β)) (i : ℕ) : HeapItem α β := (h[i]?).getD default

/-- The similarity at an index. -/
def simI (h : List (HeapItem α β)) (i : ℕ) : β := (atI h i).similarity

/-- The destructuring swap `[heap[i], heap[j]] = [heap[j], heap[i]]`. -/
def swapL (h : List (HeapItem α β)) (i j : ℕ) : List (HeapItem α β) :=
  (h.set i (atI h j)).set j (atI h i)

/-- Models `bubbleUp` (RAG module 22–29): while the index is positive and the
parent is strictly larger, swap with the parent.  Fuel: the index strictly
decreases, so the starting index suffices. -/
def bubbleUp : ℕ → List (HeapItem α β) → ℕ → List (HeapItem α β)
  | 0, h, _ => h
  | fuel + 1, h, i =>
    if i = 0 then h
    else if simI h ((i - 1) / 2) ≤ simI h i then h
    else bubbleUp fuel (swapL h ((i - 1) / 2) i) ((i - 1) / 2)

/-- The child-selection of `bubbleDown` (RAG module 33–42): `smallest`
starts at the node, moves to the left child when that is strictly smaller,
then to the right child when that is strictly smaller than the current
choice. -/
def minChildSel (h : List (HeapItem α β)) (i : ℕ) : ℕ :=
  let l := 2 * i + 1
  let r := 2 * i + 2
  let s1 := if l < h.length ∧ simI h l < simI h i then l else i
  if r < h.length ∧ simI h r < simI h s1 then r else s1

/-- Models `bubbleDown` (RAG module 31–47): stop when the node is smallest,
else swap with the smallest child and continue there.  Fuel: the index
strictly increases below the length, so the length suffices. -/
def bubbleDown : ℕ → List (HeapItem α β) → ℕ → List (HeapItem α β)
  | 0, h, _ => h
  | fuel + 1, h, i =>
    if minChildSel h i = i then h
    else bubbleDown fuel (swapL h i (minChildSel h i)) (minChildSel h i)

/-- Models `MinHeap.push` (RAG module 12–20): grow while below capacity,
else replace the root when the new item is strictly larger and restore the
heap.  A full heap of capacity 0 throws in JS (`heap[0]` is undefined);
here the item is dropped, and every claim below is stated for positive k. -/
def MinHeap.push (q : MinHeap α β) (item : HeapItem α β) : MinHeap α β :=
  if q.heap.length < q.maxSize then
    { q with heap := bubbleUp q.heap.length (q.heap ++ [item]) q.heap.length }
  else
    match q.heap with
    | [] => q
    | root :: _ =>
      if root.similarity < item.similarity then
        { q with heap := bubbleDown q.heap.length (q.heap.set 0 item) 0 }
      else q

/-- Models `MinHeap.getSorted` (RAG module 49–51): stable sort of the backing
array by descending similarity. -/
def MinHeap.getSorted (q : MinHeap α β) : List (HeapItem α β) :=
  q.heap.insertionSort fun a b => b.similarity ≤ a.similarity

/-- The streaming batch size of `searchSimilar` (RAG module 309). -/
def BATCH_SIZE : ℕ := 1000

/-- Splitting the cursor stream into batches of `BATCH_SIZE` (the code
accumulates a batch and flushes it into the heap when full; the remainder is
flushed at the end).  Fuel: the stream length suffices. -/
def chunksOfBatch : ℕ → List μ → List (List μ)
  | 0, _ => []
  | _, [] => []
  | fuel + 1, x :: t => ((x :: t).take BATCH_SIZE) :: chunksOfBatch fuel ((x :: t).drop BATCH_SIZE)

/-- A stored embedding record as the search reads it: session id, the raw
request payload, and the embedding when present and an array (records with a
missing or malformed embedding are skipped, RAG module 332). -/
structure EmbeddingEntry (α γ : Type) where
  sessionId : String
  requestData : α
  embedding : Option (List γ)
deriving DecidableEq

instance [Inhabited α] : Inhabited (EmbeddingEntry α γ) := ⟨⟨default, default, none⟩⟩

/-- The scored items the cursor produces for a session, in store order:
each session record with an embedding, paired with its similarity to the
query under the given similarity function (the source's
`this.cosineSimilarity`). -/
def sessionItems (cosSim : List γ → List γ → β) (queryEmbedding : List γ)
    (records : List (EmbeddingEntry α γ)) (sessionId : String) :
    List (HeapItem (EmbeddingEntry α γ) β) :=
  (records.filter fun r => r.sessionId = sessionId).filterMap fun r =>
    r.embedding.map fun e => ⟨r, cosSim queryEmbedding e⟩

/-- Models `searchSimilar` (RAG module 298–368): feed the session's scored
records through a min-heap of capacity `limit * 2` in batches of
`BATCH_SIZE`, then return the top `limit` of the heap contents sorted by
descending similarity (`getSorted().slice(0, limit)`). -/
def searchSimilar (cosSim : List γ → List γ → β) (queryEmbedding : List γ)
    (records : List (EmbeddingEntry α γ)) (sessionId : String) (limit : ℕ) :
    List (HeapItem (EmbeddingEntry α γ) β) :=
  let items := sessionItems cosSim queryEmbedding records sessionId
  let finalHeap := (chunksOfBatch items.length items).foldl
    (fun q batch => batch.foldl MinHeap.push q) ⟨[], limit * 2⟩
  finalHeap.getSorted.take limit

end HeapDefs

/-- Models the loop of `cosineSimilarity` (RAG module 258–272): the dot
product of the common prefix. -/
def dotProduct (a b : List ℝ) : ℝ := ((a.zip b).map fun p => p.1 * p.2).sum

/-- The summed squares of a vector (the `normA`/`normB` accumulators). -/
def sumSquares (a : List ℝ) : ℝ := (a.map fun x => x * x).sum

/-- Models `cosineSimilarity` (RAG module 258–272) over the reals: 0 for
mismatched lengths, else the dot product over the product of magnitudes.
Real-valued, hence noncomputable (`Math.sqrt`); the search claims only
compare scores. -/
noncomputable def cosineSimilarity (vecA vecB : List ℝ) : ℝ :=
  if vecA.length ≠ vecB.length then 0
  else dotProduct vecA vecB / (Real.sqrt (sumSquares vecA) * Real.sqrt (sumSquares vecB))

/-! ## Invariants used by the heap proofs -/

section HeapInvariants

variable {α β : Type} [LinearOrder β] [Inhabited α] [Inhabited β]

/-- The zero-based min-heap property: every child is at least its parent. -/
def IsMinHeapL (h : List (HeapItem α β)) : Prop :=
  ∀ c, 0 < c → c < h.length → simI h ((c - 1) / 2) ≤ simI h c

/-- The sift-up intermediate state: every edge not into the hole is ordered,
and the hole's children are bounded below by the hole's parent. -/
structure SiftUpInv (h : List (HeapItem α β)) (hole : ℕ) : Prop where
  bounded : hole < h.length
  heapEx : ∀ c, 0 < c → c < h.length → c ≠ hole → simI h ((c - 1) / 2) ≤ simI h c
  bridge : ∀ c, 0 < c → c < h.length → (c - 1) / 2 = hole →
    simI h ((hole - 1) / 2) ≤ simI h c

/-- The sift-down intermediate state: every edge not out of the hole is
ordered, and (below the root) the hole's children are bounded below by the
hole's parent. -/
structure SiftDownInv (h : List (HeapItem α β)) (hole : ℕ) : Prop where
  bounded : hole < h.length
  heapEx : ∀ c, 0 < c → c < h.length → (c - 1) / 2 ≠ hole → simI h ((c - 1) / 2) ≤ simI h c
  bridge : 0 < hole → ∀ c, 0 < c → c < h.length → (c - 1) / 2 = hole →
    simI h ((hole - 1) / 2) ≤ simI h c

/-- The invariant tying a heap to the stream prefix already pushed into it:
the heap is a min-heap holding the `maxSize` largest items seen, and every
item not retained is bounded above by everything retained. -/
structure SearchInv (seen : List (HeapItem α β)) (q : MinHeap α β) : Prop where
  heapOk : IsMinHeapL q.heap
  sizeEq : q.heap.length = min seen.length q.maxSize
  split : ∃ discarded, seen.Perm (q.heap ++ discarded) ∧
    ∀ d ∈ discarded, ∀ y ∈ q.heap, d.similarity ≤ y.similarity

end HeapInvariants

/-! ## Order instances for the stable sorts -/

theorem charListLe_total : ∀ a b : List Char, charListLe a b = true ∨ charListLe b a = true
  | [], _ => Or.inl rfl
  | _ :: _, [] => Or.inr rfl
  | a :: as, b :: bs => by
    rcases lt_trichotomy a b with h | h | h
    · left
      simp [charListLe, h]
    · subst h
      have hlt : ¬ a < a := lt_irrefl a
      rcases charListLe_total as bs with ih | ih
      · left
        simp [charListLe, hlt, ih]
      · right
        simp [charListLe, hlt, ih]
    · right
      simp [charListLe, h]

theorem charListLe_trans : ∀ a b c : List Char,
    charListLe a b = true → charListLe b c = true → charListLe a c = true
  | [], _, _, _, _ => rfl
  | _ :: _, [], _, h, _ => by simp [charListLe] at h
  | _ :: _, _ :: _, [], _, h => by simp [charListLe] at h
  | a :: as, b :: bs, c :: cs, h1, h2 => by
    simp only [charListLe] at h1 h2 ⊢
    rcases lt_trichotomy a b with gab | gab | gab
    · rcases lt_trichotomy b c with gbc | gbc | gbc
      · simp [lt_trans gab gbc]
      · subst gbc
        simp [gab]
      · rw [if_neg (lt_asymm gbc), if_pos gbc] at h2
        exact absurd h2 (by simp)
    · subst gab
      rcases lt_trichotomy a c with gac | gac | gac
      · simp [gac]
      · subst gac
        rw [if_neg (lt_irrefl a), if_neg (lt_irrefl a)] at h1 h2 ⊢
        exact charListLe_trans as bs cs h1 h2
      · rw [if_neg (lt_asymm gac), if_pos gac] at h2
        exact absurd h2 (by simp)
    · rw [if_neg (lt_asymm gab), if_pos gab] at h1
      exact absurd h1 (by simp)

theorem charListLe_antisymm : ∀ a b : List Char,
    charListLe a b = true → charListLe b a = true → a = b
  | [], [], _, _ => rfl
  | [], _ :: _, _, h => by simp [charListLe] at h
  | _ :: _, [], h, _ => by simp [charListLe] at h
  | a :: as, b :: bs, h1, h2 => by
    simp only [charListLe] at h1 h2
    rcases lt_trichotomy a b with g | g | g
    · rw [if_neg (lt_asymm g), if_pos g] at h2
      exact absurd h2 (by simp)
    · subst g
      rw [if_neg (lt_irrefl a), if_neg (lt_irrefl a)] at h1 h2
      rw [charListLe_antisymm as bs h1 h2]
    · rw [if_neg (lt_asymm g), if_pos g] at h1
      exact absurd h1 (by simp)

theorem keyLe_antisymm (a b : String) (h1 : keyLe a b = true) (h2 : keyLe b a = true) :
    a = b := by
  cases a with
  | mk da =>
    cases b with
    | mk db =>
      have := charListLe_antisymm da db h1 h2
      simp [this]

instance : IsTotal (String × String) (fun a b => keyLe a.1 b.1 = true) :=
  ⟨fun a b => charListLe_total a.1.data b.1.data⟩

instance : IsTrans (String × String) (fun a b => keyLe a.1 b.1 = true) :=
  ⟨fun _ _ _ h1 h2 => charListLe_trans _ _ _ h1 h2⟩

instance : IsTotal CrawlTask (fun a b => a.depth ≤ b.depth) :=
  ⟨fun a b => le_total a.depth b.depth⟩

instance : IsTrans CrawlTask (fun a b => a.depth ≤ b.depth) :=
  ⟨fun _ _ _ h1 h2 => le_trans h1 h2⟩

instance [LinearOrder β] :
    IsTotal (HeapItem α β) (fun a b => b.similarity ≤ a.similarity) :=
  ⟨fun a b => (le_total b.similarity a.similarity)⟩

instance [LinearOrder β] :
    IsTrans (HeapItem α β) (fun a b => b.similarity ≤ a.similarity) :=
  ⟨fun _ _ _ h1 h2 => le_trans h2 h1⟩

/-! ## Lemmas: URL normalization (C3) -/

theorem sortParams_sorted (p : List (String × String)) :
    (sortParams p).Sorted (fun a b => keyLe a.1 b.1 = true) :=
  List.sorted_insertionSort _ p

theorem sortParams_perm (p : List (String × String)) : (sortParams p).Perm p :=
  List.perm_insertionSort _ p

theorem sortParams_idem (p : List (String × String)) :
    sortParams (sortParams p) = sortParams p :=
  List.Sorted.insertionSort_eq (sortParams_sorted p)

theorem sorted_perm_nodup_keys_eq :
    ∀ (l₁ l₂ : List (String × String)), l₁.Perm l₂ →
      l₁.Sorted (fun a b => keyLe a.1 b.1 = true) →
      l₂.Sorted (fun a b => keyLe a.1 b.1 = true) →
      (l₁.map Prod.fst).Nodup → l₁ = l₂
  | [], l₂, hp, _, _, _ => by simpa using hp.symm.eq_nil
  | a :: t₁, l₂, hp, hs₁, hs₂, hn => by
    match l₂ with
    | [] => exact absurd hp.eq_nil (by simp)
    | b :: t₂ =>
      have hab : a = b := by
        by_contra hne
        have ha2 : a ∈ b :: t₂ := hp.mem_iff.mp (List.mem_cons_self a t₁)
        have hb1 : b ∈ a :: t₁ := hp.symm.mem_iff.mp (List.mem_cons_self b t₂)
        have hat2 : a ∈ t₂ := by
          rcases List.mem_cons.mp ha2 with h | h
          · exact absurd h hne
          · exact h
        have hbt1 : b ∈ t₁ := by
          rcases List.mem_cons.mp hb1 with h | h
          · exact absurd h.symm hne
          · exact h
        have h1 : keyLe a.1 b.1 = true := (List.pairwise_cons.mp hs₁).1 b hbt1
        have h2 : keyLe b.1 a.1 = true := (List.pairwise_cons.mp hs₂).1 a hat2
        have hkey : a.1 = b.1 := keyLe_antisymm _ _ h1 h2
        have : a.1 ∈ t₁.map Prod.fst := by
          rw [hkey]
          exact List.mem_map_of_mem Prod.fst hbt1
        exact (List.nodup_cons.mp hn).1 this
      subst hab
      have ht : t₁.Perm t₂ := hp.cons_inv
      have := sorted_perm_nodup_keys_eq t₁ t₂ ht
        (List.pairwise_cons.mp hs₁).2 (List.pairwise_cons.mp hs₂).2
        (List.nodup_cons.mp hn).2
      rw [this]

theorem normalizeUrl_idem (u : ParsedUrl) : normalizeUrl (normalizeUrl u) = normalizeUrl u := by
  simp [normalizeUrl, sortParams_idem]

theorem sortParams_eq_of_perm_nodup (p₁ p₂ : List (String × String))
    (hperm : p₁.Perm p₂) (hnd : (p₁.map Prod.fst).Nodup) :
    sortParams p₁ = sortParams p₂ := by
  have h1 : (sortParams p₁).Perm (sortParams p₂) :=
    ((sortParams_perm p₁).trans hperm).trans (sortParams_perm p₂).symm
  have hnd1 : ((sortParams p₁).map Prod.fst).Nodup :=
    (((sortParams_perm p₁).map Prod.fst).nodup_iff).mpr hnd
  exact sorted_perm_nodup_keys_eq _ _ h1 (sortParams_sorted p₁) (sortParams_sorted p₂) hnd1

/-! ## Claim C3: URL normalization -/

/-- C3 counterexample: the query-order half of the claim fails when a key is
duplicated.  `https://example.com/?a=1&a=2` and `https://example.com/?a=2&a=1`
differ only in the order of their query parameters, yet the stable
key-comparator sort preserves the relative order of the two `a` entries, so
the two URLs normalize to different strings. -/
theorem c3_counterexample :
    (ParsedUrl.mk "https" "example.com" "/" [("a", "1"), ("a", "2")] none).params.Perm
      (ParsedUrl.mk "https" "example.com" "/" [("a", "2"), ("a", "1")] none).params ∧
    normalizeUrlHref (ParsedUrl.mk "https" "example.com" "/" [("a", "1"), ("a", "2")] none) =
      "https://example.com/?a=1&a=2" ∧
    normalizeUrlHref (ParsedUrl.mk "https" "example.com" "/" [("a", "2"), ("a", "1")] none) =
      "https://example.com/?a=2&a=1" ∧
    normalizeUrlHref (ParsedUrl.mk "https" "example.com" "/" [("a", "1"), ("a", "2")] none) ≠
      normalizeUrlHref (ParsedUrl.mk "https" "example.com" "/" [("a", "2"), ("a", "1")] none) := by
  refine ⟨by decide, by decide, by decide, by decide⟩

/-- C3 (amended): `normalizeUrl` is idempotent (both at the URL-record level
and on the returned string); two URLs differing only in their fragment
normalize to the same string; and two URLs differing only in the order of
their query parameters normalize to the same string provided the parameter
keys are pairwise distinct (the stable sort preserves the relative order of
equal keys, which is what the counterexample exploits). -/
theorem c3_normalization :
    (∀ u : ParsedUrl, normalizeUrl (normalizeUrl u) = normalizeUrl u) ∧
    (∀ u : ParsedUrl, normalizeUrlHref (normalizeUrl u) = normalizeUrlHref u) ∧
    (∀ (u : ParsedUrl) (f₁ f₂ : Option String),
      normalizeUrlHref { u with fragment := f₁ } = normalizeUrlHref { u with fragment := f₂ }) ∧
    (∀ (u : ParsedUrl) (p₂ : List (String × String)), u.params.Perm p₂ →
      (u.params.map Prod.fst).Nodup →
      normalizeUrlHref u = normalizeUrlHref { u with params := p₂ }) := by
  refine ⟨normalizeUrl_idem, ?_, ?_, ?_⟩
  · intro u
    simp [normalizeUrlHref, normalizeUrl_idem]
  · intro u f₁ f₂
    simp [normalizeUrlHref, normalizeUrl]
  · intro u p₂ hperm hnd
    simp only [normalizeUrlHref, normalizeUrl]
    rw [sortParams_eq_of_perm_nodup u.params p₂ hperm hnd]

/-- Witness for C3: the amended query-order statement applied to
`https://h/?a=1&b=2` versus `https://h/?b=2&a=1`. -/
theorem c3_witness :
    (ParsedUrl.mk "https" "h" "/" [("a", "1"), ("b", "2")] none).params.Perm
      [("b", "2"), ("a", "1")] ∧
    ((ParsedUrl.mk "https" "h" "/" [("a", "1"), ("b", "2")] none).params.map Prod.fst).Nodup ∧
    normalizeUrlHref (ParsedUrl.mk "https" "h" "/" [("a", "1"), ("b", "2")] none) =
      normalizeUrlHref { ParsedUrl.mk "https" "h" "/" [("a", "1"), ("b", "2")] none with
        params := [("b", "2"), ("a", "1")] } :=
  ⟨by decide, by decide,
    c3_normalization.2.2.2 (ParsedUrl.mk "https" "h" "/" [("a", "1"), ("b", "2")] none)
      [("b", "2"), ("a", "1")] (by decide) (by decide)⟩

/-! ## Lemmas: scheduler queue behavior (C1, C2) -/

theorem handlePageScanned_queue_cases (st : CrawlState) (msg : ScanMsg) :
    (handlePageScanned st msg).queue = st.queue ∨
    ∃ links, (handlePageScanned st msg).queue = sortByDepth (st.queue ++ links) := by
  unfold handlePageScanned
  split
  · exact Or.inl rfl
  · split
    · split
      · split
        · exact Or.inr ⟨_, rfl⟩
        · exact Or.inl rfl
    · exact Or.inl rfl

theorem handlePageScanned_visited (st : CrawlState) (msg : ScanMsg) :
    (handlePageScanned st msg).visited = st.visited := by
  unfold handlePageScanned
  split
  · rfl
  · split
    · split
      · split <;> rfl
    · rfl

theorem processNext_visit_inv (st : CrawlState) (t : CrawlTask) (st' : CrawlState)
    (h : processNext st = .visit t st') :
    st.queue = t :: st'.queue ∧
    st'.visited = st.visited ++ [normalizeUrlHref t.url] ∧
    normalizeUrlHref t.url ∉ st.visited ∧
    t.depth ≤ st.maxDepth ∧
    st.crawlActive = true ∧
    pageLimitReached st = false := by
  cases hact : st.crawlActive with
  | false => simp [processNext, hact] at h
  | true =>
    cases hlim : pageLimitReached st with
    | true => simp [processNext, hact, hlim] at h
    | false =>
      rcases hq : st.queue with _ | ⟨task, rest⟩
      · simp [processNext, hact, hlim, hq] at h
      · by_cases h3 : normalizeUrlHref task.url ∈ st.visited
        · simp [processNext, hact, hlim, hq, h3] at h
        · by_cases h4 : st.maxDepth < task.depth
          · simp [processNext, hact, hlim, hq, h3, h4] at h
          · simp [processNext, hact, hlim, hq, h3, h4] at h
            obtain ⟨rfl, rfl⟩ := h
            refine ⟨by simp, by simp, h3, by omega, rfl, rfl⟩

theorem processNext_skip_inv (st : CrawlState) (st' : CrawlState)
    (h : processNext st = .skip st') :
    ∃ task rest, st.queue = task :: rest ∧ st' = { st with queue := rest } := by
  cases hact : st.crawlActive with
  | false => simp [processNext, hact] at h
  | true =>
    cases hlim : pageLimitReached st with
    | true => simp [processNext, hact, hlim] at h
    | false =>
      rcases hq : st.queue with _ | ⟨task, rest⟩
      · simp [processNext, hact, hlim, hq] at h
      · by_cases h3 : normalizeUrlHref task.url ∈ st.visited
        · simp [processNext, hact, hlim, hq, h3] at h
          exact ⟨task, rest, rfl, h.symm⟩
        · by_cases h4 : st.maxDepth < task.depth
          · simp [processNext, hact, hlim, hq, h3, h4] at h
            exact ⟨task, rest, rfl, h.symm⟩
          · simp [processNext, hact, hlim, hq, h3, h4] at h

/-! ## Claim C1: BFS depth ordering -/

/-- C1: the seed queue is depth-sorted; `handlePageScanned` leaves a
depth-sorted queue depth-sorted (after an enqueue it re-sorts, so every
depth-N task precedes every depth-(N+1) task); a `processNext` dequeue
preserves depth-sortedness; and a task dequeued from a depth-sorted queue
has depth at most that of every task still enqueued — in particular the
scheduler never dequeues a depth-(D+1) task while a depth-D task (from the
same discovery batch or any other) remains queued. -/
theorem c1_bfs_depth_ordering :
    (∀ (u : ParsedUrl) (d : ℕ) (pl : Option ℕ),
      ((startCrawl u d pl).queue).Sorted (fun a b => a.depth ≤ b.depth)) ∧
    (∀ (st : CrawlState) (msg : ScanMsg),
      st.queue.Sorted (fun a b => a.depth ≤ b.depth) →
      ((handlePageScanned st msg).queue).Sorted (fun a b => a.depth ≤ b.depth)) ∧
    (∀ (st : CrawlState) (t : CrawlTask) (st' : CrawlState),
      st.queue.Sorted (fun a b => a.depth ≤ b.depth) →
      (processNext st = .visit t st' ∨ processNext st = .skip st') →
      st'.queue.Sorted (fun a b => a.depth ≤ b.depth)) ∧
    (∀ (st : CrawlState) (t : CrawlTask) (st' : CrawlState),
      st.queue.Sorted (fun a b => a.depth ≤ b.depth) →
      processNext st = .visit t st' →
      ∀ t' ∈ st'.queue, t.depth ≤ t'.depth) := by
  refine ⟨?_, ?_, ?_, ?_⟩
  · intro u d pl
    simp [startCrawl]
  · intro st msg hs
    rcases handlePageScanned_queue_cases st msg with h | ⟨links, h⟩
    · rwa [h]
    · rw [h]
      exact List.sorted_insertionSort _ _
  · intro st t st' hs h
    rcases h with h | h
    · obtain ⟨hq, -⟩ := processNext_visit_inv st t st' h
      rw [hq] at hs
      exact (List.pairwise_cons.mp hs).2
    · obtain ⟨task, rest, hq, rfl⟩ := processNext_skip_inv st st' h
      rw [hq] at hs
      exact (List.pairwise_cons.mp hs).2
  · intro st t st' hs h t' ht'
    obtain ⟨hq, -⟩ := processNext_visit_inv st t st' h
    rw [hq] at hs
    exact (List.pairwise_cons.mp hs).1 t' ht'

/-- Witness for C1: a two-task depth-sorted queue; the dequeued task's depth
bounds the remaining task's depth. -/
theorem c1_witness :
    ((CrawlState.mk true 3 none "https://h" [] []
        [⟨ParsedUrl.mk "https" "h" "/a" [] none, 1⟩,
         ⟨ParsedUrl.mk "https" "h" "/b" [] none, 2⟩] none).queue).Sorted
      (fun a b => a.depth ≤ b.depth) ∧
    processNext (CrawlState.mk true 3 none "https://h" [] []
        [⟨ParsedUrl.mk "https" "h" "/a" [] none, 1⟩,
         ⟨ParsedUrl.mk "https" "h" "/b" [] none, 2⟩] none) =
      .visit ⟨ParsedUrl.mk "https" "h" "/a" [] none, 1⟩
        (CrawlState.mk true 3 none "https://h" ["https://h/a"] []
          [⟨ParsedUrl.mk "https" "h" "/b" [] none, 2⟩]
          (some ⟨ParsedUrl.mk "https" "h" "/a" [] none, 1⟩)) ∧
    (∀ t' ∈ (CrawlState.mk true 3 none "https://h" ["https://h/a"] []
        [⟨ParsedUrl.mk "https" "h" "/b" [] none, 2⟩]
        (some ⟨ParsedUrl.mk "https" "h" "/a" [] none, 1⟩)).queue,
      (1 : ℕ) ≤ t'.depth) :=
  ⟨by decide, by decide,
    c1_bfs_depth_ordering.2.2.2
      (CrawlState.mk true 3 none "https://h" [] []
        [⟨ParsedUrl.mk "https" "h" "/a" [] none, 1⟩,
         ⟨ParsedUrl.mk "https" "h" "/b" [] none, 2⟩] none)
      ⟨ParsedUrl.mk "https" "h" "/a" [] none, 1⟩
      (CrawlState.mk true 3 none "https://h" ["https://h/a"] []
        [⟨ParsedUrl.mk "https" "h" "/b" [] none, 2⟩]
        (some ⟨ParsedUrl.mk "https" "h" "/a" [] none, 1⟩))
      (by decide) (by decide)⟩

/-! ## Claim C2: page-limit enforcement and termination order -/

/-- C2 counterexample: the crawl-deactivated termination does not report a
final count.  On a deactivated crawl with five visited pages, `processNext`
halts with the fixed status `"Crawl stopped."`, which contains no digit at
all — unlike the page-limit and queue-empty exits, whose statuses embed the
visited count. -/
theorem c2_counterexample :
    processNext (CrawlState.mk false 2 (some 3) "o" ["a", "b", "c", "d", "e"] [] [] none) =
      .halted crawlStoppedStatus
        (CrawlState.mk false 2 (some 3) "o" ["a", "b", "c", "d", "e"] [] [] none) ∧
    (CrawlState.mk false 2 (some 3) "o" ["a", "b", "c", "d", "e"] [] [] none).visited.length = 5 ∧
    crawlStoppedStatus.data.all (fun c => ¬ c.isDigit) = true := by
  refine ⟨by decide, by decide, by decide⟩

/-- C2 (amended): the termination conditions are checked in source order —
crawl deactivated, then page limit, then empty queue; with a positive page
limit `L` the limit check fires exactly when the visited set has reached `L`
pages; a visit step adds exactly one page and only runs below the limit, so
the visited count never exceeds `L` (skips and `handlePageScanned` leave the
visited set unchanged); and the page-limit and queue-empty exits report the
final visited count in their status, while the deactivated exit reports the
bare status `"Crawl stopped."` with no count. -/
theorem c2_page_limit :
    (∀ st : CrawlState, st.crawlActive = false →
      processNext st = .halted crawlStoppedStatus st) ∧
    (∀ st : CrawlState, st.crawlActive = true → pageLimitReached st = true →
      processNext st = .halted (pageLimitStatus st.visited.length (st.pageLimit.getD 0))
        { st with crawlActive := false }) ∧
    (∀ (st : CrawlState) (l : ℕ), st.pageLimit = some l → 0 < l →
      (pageLimitReached st = true ↔ l ≤ st.visited.length)) ∧
    (∀ st : CrawlState, st.crawlActive = true → pageLimitReached st = false →
      st.queue = [] →
      processNext st = .halted (queueEmptyStatus st.visited.length)
        { st with crawlActive := false }) ∧
    (∀ (st : CrawlState) (t : CrawlTask) (st' : CrawlState) (l : ℕ),
      processNext st = .visit t st' → st.pageLimit = some l → 0 < l →
      st.visited.length < l ∧ st'.visited.length = st.visited.length + 1 ∧
      st'.visited.length ≤ l) ∧
    (∀ (st st' : CrawlState), processNext st = .skip st' → st'.visited = st.visited) ∧
    (∀ (st : CrawlState) (msg : ScanMsg), (handlePageScanned st msg).visited = st.visited) := by
  refine ⟨?_, ?_, ?_, ?_, ?_, ?_, handlePageScanned_visited⟩
  · intro st h
    simp [processNext, h]
  · intro st h1 h2
    simp [processNext, h1, h2]
  · intro st l hl hpos
    simp [pageLimitReached, hl, hpos]
  · intro st h1 h2 h3
    simp [processNext, h1, h2, h3]
  · intro st t st' l h hl hpos
    obtain ⟨-, hv, -, -, -, hlim⟩ := processNext_visit_inv st t st' h
    have hlt : st.visited.length < l := by
      by_contra hc
      have : pageLimitReached st = true := by
        simp [pageLimitReached, hl, hpos]
        omega
      rw [this] at hlim
      exact absurd hlim (by simp)
    refine ⟨hlt, by simp [hv], by simp [hv]; omega⟩
  · intro st st' h
    obtain ⟨task, rest, hq, rfl⟩ := processNext_skip_inv st st' h
    rfl

/-- Witness for C2: a crawl with limit 2 and two visited pages halts with
the page-limit status reporting 2/2. -/
theorem c2_witness :
    processNext (CrawlState.mk true 2 (some 2) "o" ["a", "b"] [] [] none) =
      .halted (pageLimitStatus 2 2)
        { CrawlState.mk true 2 (some 2) "o" ["a", "b"] [] [] none with crawlActive := false } :=
  c2_page_limit.2.1 (CrawlState.mk true 2 (some 2) "o" ["a", "b"] [] [] none) rfl (by decide)

/-! ## Claim C8: link discovery scenario and acceptance policy -/

theorem collectNewLinks_mem :
    ∀ (links : List ParsedUrl) (origin : String) (depth : ℕ)
      (visited discovered : List String) (acc : List CrawlTask) (t : CrawlTask),
      t ∈ (collectNewLinks origin depth visited discovered acc links).2 →
      t ∈ acc ∨ (urlOrigin t.url = origin ∧ t.depth = depth + 1 ∧
        normalizeUrlHref t.url ∉ visited ∧ normalizeUrlHref t.url ∉ discovered)
  | [], _, _, _, _, _, _, ht => Or.inl ht
  | u :: rest, origin, depth, visited, discovered, acc, t, ht => by
    simp only [collectNewLinks] at ht
    by_cases ho : urlOrigin u = origin
    · rw [if_pos ho] at ht
      by_cases hf : normalizeUrlHref u ∉ discovered ∧ normalizeUrlHref u ∉ visited
      · rw [if_pos hf] at ht
        rcases collectNewLinks_mem rest origin depth visited _ _ t ht with h | h
        · rcases List.mem_append.mp h with h2 | h2
          · exact Or.inl h2
          · have ht2 : t = ⟨u, depth + 1⟩ := by simpa using h2
            subst ht2
            exact Or.inr ⟨ho, rfl, hf.2, hf.1⟩
        · exact Or.inr ⟨h.1, h.2.1, h.2.2.1,
            fun hc => h.2.2.2 (List.mem_append_left _ hc)⟩
      · rw [if_neg hf] at ht
        exact collectNewLinks_mem rest origin depth visited _ _ t ht
    · rw [if_neg ho] at ht
      exact collectNewLinks_mem rest origin depth visited _ _ t ht

/-- C8 counterexample: in the claimed scenario (seed at depth 1,
`maxDepth = 1`, same-origin links `/a` and `/b` plus a cross-origin link)
the queue after the first scan is empty, not two depth-2 tasks: the guard
`depth < maxDepth` fails for the seed's own depth 1, so no link is enqueued
at all. -/
theorem c8_counterexample :
    processNext (startCrawl (ParsedUrl.mk "https" "example.com" "/" [] none) 1 none) =
      .visit ⟨ParsedUrl.mk "https" "example.com" "/" [] none, 1⟩
        (CrawlState.mk true 1 none "https://example.com" ["https://example.com/"]
          ["https://example.com/"] []
          (some ⟨ParsedUrl.mk "https" "example.com" "/" [] none, 1⟩)) ∧
    (handlePageScanned
        (CrawlState.mk true 1 none "https://example.com" ["https://example.com/"]
          ["https://example.com/"] []
          (some ⟨ParsedUrl.mk "https" "example.com" "/" [] none, 1⟩))
        ⟨ParsedUrl.mk "https" "example.com" "/" [] none, 1,
          [ParsedUrl.mk "https" "example.com" "/a" [] none,
           ParsedUrl.mk "https" "example.com" "/b" [] none,
           ParsedUrl.mk "https" "other.com" "/c" [] none]⟩).queue = [] ∧
    ((handlePageScanned
        (CrawlState.mk true 1 none "https://example.com" ["https://example.com/"]
          ["https://example.com/"] []
          (some ⟨ParsedUrl.mk "https" "example.com" "/" [] none, 1⟩))
        ⟨ParsedUrl.mk "https" "example.com" "/" [] none, 1,
          [ParsedUrl.mk "https" "example.com" "/a" [] none,
           ParsedUrl.mk "https" "example.com" "/b" [] none,
           ParsedUrl.mk "https" "other.com" "/c" [] none]⟩).queue.length = 2 → False) := by
  refine ⟨by decide, by decide, by decide⟩

/-- C8 (amended): with the seed at depth 1 the scenario requires
`maxDepth = 2` — then the queue after the first scan contains exactly the
two same-origin links as depth-2 tasks and the cross-origin link is never
enqueued nor indexed; and in general every task `handlePageScanned` adds was
same-origin, was discovered below `maxDepth`, carries depth one above the
scanned page, and was neither visited nor already discovered. -/
theorem c8_link_discovery :
    ((handlePageScanned
        (CrawlState.mk true 2 none "https://example.com" ["https://example.com/"]
          ["https://example.com/"] []
          (some ⟨ParsedUrl.mk "https" "example.com" "/" [] none, 1⟩))
        ⟨ParsedUrl.mk "https" "example.com" "/" [] none, 1,
          [ParsedUrl.mk "https" "example.com" "/a" [] none,
           ParsedUrl.mk "https" "example.com" "/b" [] none,
           ParsedUrl.mk "https" "other.com" "/c" [] none]⟩).queue =
      [⟨ParsedUrl.mk "https" "example.com" "/a" [] none, 2⟩,
       ⟨ParsedUrl.mk "https" "example.com" "/b" [] none, 2⟩]) ∧
    (normalizeUrlHref (ParsedUrl.mk "https" "other.com" "/c" [] none) ∉
      (handlePageScanned
        (CrawlState.mk true 2 none "https://example.com" ["https://example.com/"]
          ["https://example.com/"] []
          (some ⟨ParsedUrl.mk "https" "example.com" "/" [] none, 1⟩))
        ⟨ParsedUrl.mk "https" "example.com" "/" [] none, 1,
          [ParsedUrl.mk "https" "example.com" "/a" [] none,
           ParsedUrl.mk "https" "example.com" "/b" [] none,
           ParsedUrl.mk "https" "other.com" "/c" [] none]⟩).allDiscoveredLinks) ∧
    (∀ (st : CrawlState) (msg : ScanMsg) (t : CrawlTask),
      t ∈ (handlePageScanned st msg).queue →
      t ∈ st.queue ∨ (urlOrigin t.url = st.origin ∧ msg.depth < st.maxDepth ∧
        t.depth = msg.depth + 1 ∧ normalizeUrlHref t.url ∉ st.visited ∧
        normalizeUrlHref t.url ∉ st.allDiscoveredLinks)) := by
  refine ⟨by decide, by decide, ?_⟩
  intro st msg t ht
  unfold handlePageScanned at ht
  split at ht
  · exact Or.inl ht
  · split at ht
    · rename_i hcond
      split at ht
      · rename_i discovered newLinks heq
        split at ht
        · have hperm : sortByDepth (st.queue ++ newLinks) |>.Perm (st.queue ++ newLinks) :=
            List.perm_insertionSort _ _
          have hmem : t ∈ st.queue ++ newLinks := hperm.mem_iff.mp ht
          rcases List.mem_append.mp hmem with h2 | h2
          · exact Or.inl h2
          · have h3 : t ∈ (collectNewLinks st.origin msg.depth st.visited
                st.allDiscoveredLinks [] msg.internalLinks).2 := by
              rw [heq]
              exact h2
            rcases collectNewLinks_mem _ _ _ _ _ _ _ h3 with h4 | h4
            · exact absurd h4 (List.not_mem_nil t)
            · exact Or.inr ⟨h4.1, hcond.1, h4.2.1, h4.2.2.1, h4.2.2.2⟩
        · exact Or.inl ht
    · exact Or.inl ht

/-- Witness for C8: the queue of the amended scenario contains the `/a`
task, and the policy part confirms it is same-origin, depth 2, fresh. -/
theorem c8_witness :
    (⟨ParsedUrl.mk "https" "example.com" "/a" [] none, 2⟩ : CrawlTask) ∈
      (handlePageScanned
        (CrawlState.mk true 2 none "https://example.com" ["https://example.com/"]
          ["https://example.com/"] []
          (some ⟨ParsedUrl.mk "https" "example.com" "/" [] none, 1⟩))
        ⟨ParsedUrl.mk "https" "example.com" "/" [] none, 1,
          [ParsedUrl.mk "https" "example.com" "/a" [] none,
           ParsedUrl.mk "https" "example.com" "/b" [] none,
           ParsedUrl.mk "https" "other.com" "/c" [] none]⟩).queue ∧
    ((⟨ParsedUrl.mk "https" "example.com" "/a" [] none, 2⟩ : CrawlTask) ∈
      (CrawlState.mk true 2 none "https://example.com" ["https://example.com/"]
        ["https://example.com/"] []
        (some ⟨ParsedUrl.mk "https" "example.com" "/" [] none, 1⟩)).queue ∨
      (urlOrigin (ParsedUrl.mk "https" "example.com" "/a" [] none) = "https://example.com" ∧
        1 < 2 ∧ (2 : ℕ) = 1 + 1 ∧
        normalizeUrlHref (ParsedUrl.mk "https" "example.com" "/a" [] none) ∉
          ["https://example.com/"] ∧
        normalizeUrlHref (ParsedUrl.mk "https" "example.com" "/a" [] none) ∉
          ["https://example.com/"])) :=
  ⟨by decide,
    c8_link_discovery.2.2
      (CrawlState.mk true 2 none "https://example.com" ["https://example.com/"]
        ["https://example.com/"] []
        (some ⟨ParsedUrl.mk "https" "example.com" "/" [] none, 1⟩))
      ⟨ParsedUrl.mk "https" "example.com" "/" [] none, 1,
        [ParsedUrl.mk "https" "example.com" "/a" [] none,
         ParsedUrl.mk "https" "example.com" "/b" [] none,
         ParsedUrl.mk "https" "other.com" "/c" [] none]⟩
      ⟨ParsedUrl.mk "https" "example.com" "/a" [] none, 2⟩ (by decide)⟩

/-! ## Claim C5: batch partitioning -/

theorem batchTokens_append_one (l : List NetworkCall) (c : NetworkCall) :
    batchTokens (l ++ [c]) = batchTokens l + callTokens c := by
  simp [batchTokens]

theorem splitLoop_flatten :
    ∀ (rest : List NetworkCall) (batches : List (List NetworkCall))
      (current : List NetworkCall) (tok : ℕ),
      (splitLoop rest batches current tok).flatten = batches.flatten ++ current ++ rest
  | [], batches, current, tok => by
    by_cases h : current.isEmpty
    · have : current = [] := List.isEmpty_iff.mp h
      simp [splitLoop, h, this]
    · simp [splitLoop, h]
  | c :: rest, batches, current, tok => by
    simp only [splitLoop]
    split
    · rw [splitLoop_flatten rest]
      simp
    · rw [splitLoop_flatten rest]
      simp

theorem splitLoop_batches :
    ∀ (rest : List NetworkCall) (batches : List (List NetworkCall))
      (current : List NetworkCall) (tok : ℕ),
      tok = batchTokens current →
      (∀ b ∈ batches, ¬ b.isEmpty ∧
        (batchTokens b + baseOverhead ≤ MAX_TOKENS_PER_BATCH ∨ b.length = 1)) →
      (¬ current.isEmpty →
        (batchTokens current + baseOverhead ≤ MAX_TOKENS_PER_BATCH ∨ current.length = 1)) →
      ∀ b ∈ splitLoop rest batches current tok, ¬ b.isEmpty ∧
        (batchTokens b + baseOverhead ≤ MAX_TOKENS_PER_BATCH ∨ b.length = 1)
  | [], batches, current, tok, htok, hb, hc, b, hmem => by
    simp only [splitLoop] at hmem
    by_cases h : current.isEmpty
    · rw [if_pos h] at hmem
      exact hb b (by simpa using hmem)
    · rw [if_neg h] at hmem
      rcases List.mem_append.mp hmem with h2 | h2
      · exact hb b h2
      · have : b = current := by simpa using h2
        subst this
        exact ⟨h, hc h⟩
  | c :: rest, batches, current, tok, htok, hb, hc, b, hmem => by
    simp only [splitLoop] at hmem
    split at hmem
    · rename_i hcond
      refine splitLoop_batches rest _ _ _ (by simp [batchTokens]) ?_ ?_ b hmem
      · intro b2 hb2
        rcases List.mem_append.mp hb2 with h2 | h2
        · exact hb b2 h2
        · have : b2 = current := by simpa using h2
          subst this
          exact ⟨hcond.2, hc hcond.2⟩
      · intro _
        exact Or.inr rfl
    · rename_i hcond
      refine splitLoop_batches rest _ _ _ ?_ hb ?_ b hmem
      · rw [htok, batchTokens_append_one]
      · intro _
        by_cases hcur : current.isEmpty
        · have : current = [] := List.isEmpty_iff.mp hcur
          subst this
          exact Or.inr (by simp)
        · left
          rw [batchTokens_append_one]
          have : ¬ (MAX_TOKENS_PER_BATCH < tok + callTokens c + baseOverhead ∧
              ¬ current.isEmpty = true) := hcond
          rw [htok] at this
          by_contra hgt
          exact this ⟨by omega, by simpa using hcur⟩

/-- C5: the greedy splitter of `processBatchesDirect` partitions its input —
the batches concatenate back to the call list in order, so every call lands
in exactly one batch and none is dropped; every batch is nonempty; and every
batch either fits the ceiling including the prompt overhead or is a
singleton whose lone call alone exceeds the budget. -/
theorem c5_batch_partitioning :
    ∀ calls : List NetworkCall,
      (splitIntoBatches calls).flatten = calls ∧
      ∀ b ∈ splitIntoBatches calls, ¬ b.isEmpty ∧
        (batchTokens b + baseOverhead ≤ MAX_TOKENS_PER_BATCH ∨ b.length = 1) := by
  intro calls
  constructor
  · rw [splitIntoBatches, splitLoop_flatten]
    simp
  · exact splitLoop_batches calls [] [] 0 (by simp [batchTokens])
      (by intro b hb; exact absurd hb (List.not_mem_nil b))
      (by intro h; exact absurd rfl h)

/-- Witness for C5: a single short call becomes the single batch `[[c]]`. -/
theorem c5_witness :
    (splitIntoBatches [NetworkCall.mk "https://h/x" "GET" "h" "/x" "p" [] none]).flatten =
      [NetworkCall.mk "https://h/x" "GET" "h" "/x" "p" [] none] ∧
    ¬ ([NetworkCall.mk "https://h/x" "GET" "h" "/x" "p" [] none]).isEmpty ∧
    (batchTokens [NetworkCall.mk "https://h/x" "GET" "h" "/x" "p" [] none] + baseOverhead ≤
        MAX_TOKENS_PER_BATCH ∨
      ([NetworkCall.mk "https://h/x" "GET" "h" "/x" "p" [] none]).length = 1) :=
  ⟨(c5_batch_partitioning [NetworkCall.mk "https://h/x" "GET" "h" "/x" "p" [] none]).1,
    (c5_batch_partitioning [NetworkCall.mk "https://h/x" "GET" "h" "/x" "p" [] none]).2
      [NetworkCall.mk "https://h/x" "GET" "h" "/x" "p" [] none] (by decide)⟩

/-! ## Claim C6: embedding idempotency -/

theorem selectRequests_mem :
    ∀ (calls acc : List RequestData) (existing : List String) (r : RequestData),
      r ∈ selectRequests existing acc calls →
      r ∈ acc ∨ getRequestSignature r ∉ existing
  | [], acc, existing, r, h => Or.inl h
  | call :: rest, acc, existing, r, h => by
    simp only [selectRequests] at h
    split at h
    · split at h
      · exact selectRequests_mem rest acc existing r h
      · rcases selectRequests_mem rest _ existing r h with h2 | h2
        · rcases List.mem_append.mp h2 with h3 | h3
          · exact Or.inl h3
          · have : r = call := by simpa using h3
            subst this
            right
            rename_i hsig
            exact hsig
        · exact Or.inr h2
    · exact selectRequests_mem rest acc existing r h

theorem selectRequests_sublist :
    ∀ (calls acc : List RequestData) (existing : List String),
      ∃ news, selectRequests existing acc calls = acc ++ news ∧ news.Sublist calls
  | [], acc, existing => ⟨[], by simp [selectRequests]⟩
  | call :: rest, acc, existing => by
    simp only [selectRequests]
    split
    · split
      · obtain ⟨news, heq, hsub⟩ := selectRequests_sublist rest acc existing
        exact ⟨news, heq, hsub.cons call⟩
      · obtain ⟨news, heq, hsub⟩ := selectRequests_sublist rest (acc ++ [call]) existing
        exact ⟨call :: news, by simpa using heq, hsub.cons₂ call⟩
    · obtain ⟨news, heq, hsub⟩ := selectRequests_sublist rest acc existing
      exact ⟨news, heq, hsub.cons call⟩

theorem length_filter_le_one_of_nodup_map :
    ∀ (l : List RequestData), ((l.map getRequestSignature).Nodup) → ∀ sig : String,
      (l.filter fun r => decide (getRequestSignature r = sig)).length ≤ 1
  | [], _, _ => by simp
  | a :: t, hnd, sig => by
    have hnd' := List.nodup_cons.mp hnd
    by_cases ha : getRequestSignature a = sig
    · have htail : (t.filter fun r => decide (getRequestSignature r = sig)) = [] := by
        rw [List.filter_eq_nil_iff]
        intro x hx hc
        have hxs : getRequestSignature x = sig := by simpa using hc
        apply hnd'.1
        have hmem : getRequestSignature x ∈ t.map getRequestSignature :=
          List.mem_map_of_mem _ hx
        rwa [ha, ← hxs]
      simp [List.filter_cons, ha, htail]
    · have := length_filter_le_one_of_nodup_map t hnd'.2 sig
      simpa [List.filter_cons, ha] using this

theorem filter_map_session_length (sid' sig : String) :
    ∀ t : List RequestData,
      ((t.map fun r => (⟨sid', r⟩ : EmbeddingRecord)).filter fun r =>
        decide (r.sessionId = sid') && decide (getRequestSignature r.requestData = sig)).length =
      (t.filter fun r => decide (getRequestSignature r = sig)).length
  | [] => rfl
  | a :: t => by
    by_cases hc : getRequestSignature a = sig
    · simp [List.filter_cons, hc, filter_map_session_length sid' sig t]
    · simp [List.filter_cons, hc, filter_map_session_length sid' sig t]

/-- The at-most-one-record-per-signature-per-session invariant the claim
asserts for the embedding store. -/
def AtMostOnePerSig (store : List EmbeddingRecord) : Prop :=
  ∀ sid sig, sigCount store sid sig ≤ 1

/-- C6 counterexample: the pre-check consults only the signatures already in
the store, so two identical calls inside one `processNetworkCalls` invocation
are both selected and both stored — the session ends up with two
`EmbeddingRecord`s of the same signature, violating the claimed invariant
within a single invocation. -/
theorem c6_counterexample :
    sigCount
      (processNetworkCallsStore [] [RequestData.mk "h" "/p" "GET" [] none,
        RequestData.mk "h" "/p" "GET" [] none] "s") "s"
      (getRequestSignature (RequestData.mk "h" "/p" "GET" [] none)) = 2 ∧
    ¬ sigCount
      (processNetworkCallsStore [] [RequestData.mk "h" "/p" "GET" [] none,
        RequestData.mk "h" "/p" "GET" [] none] "s") "s"
      (getRequestSignature (RequestData.mk "h" "/p" "GET" [] none)) ≤ 1 := by
  refine ⟨by decide, by decide⟩

/-- C6 (amended): the signature pre-check makes indexing idempotent across
invocations — no request whose signature is already stored for the session
is ever selected for embedding, and when the calls of one invocation carry
pairwise-distinct signatures the at-most-one-record-per-signature-per-session
invariant is preserved.  Duplicate signatures within a single invocation are
not deduplicated against each other (see the counterexample). -/
theorem c6_embedding_idempotency :
    (∀ (existing : List String) (calls : List RequestData) (r : RequestData),
      r ∈ selectRequests existing [] calls → getRequestSignature r ∉ existing) ∧
    (∀ (store : List EmbeddingRecord) (calls : List RequestData) (sid : String),
      AtMostOnePerSig store → ((calls.map getRequestSignature).Nodup) →
      AtMostOnePerSig (processNetworkCallsStore store calls sid)) := by
  constructor
  · intro existing calls r h
    rcases selectRequests_mem calls [] existing r h with h2 | h2
    · exact absurd h2 (List.not_mem_nil r)
    · exact h2
  · intro store calls sid hstore hnd sid' sig
    obtain ⟨news, heq, hsub⟩ := selectRequests_sublist calls []
      (existingSignaturesOf store sid)
    have hsel : selectRequests (existingSignaturesOf store sid) [] calls = news := by
      simpa using heq
    unfold AtMostOnePerSig at hstore
    unfold sigCount at hstore ⊢
    rw [processNetworkCallsStore, hsel, List.filter_append, List.length_append]
    by_cases hsid : sid' = sid
    · subst hsid
      set p : EmbeddingRecord → Bool := fun r =>
        decide (r.sessionId = sid') && decide (getRequestSignature r.requestData = sig) with hp
      by_cases hin : ∃ r ∈ store, p r = true
      · have hsigmem : sig ∈ existingSignaturesOf store sid' := by
          obtain ⟨r, hr, hpr⟩ := hin
          rw [hp] at hpr
          simp only [Bool.and_eq_true, decide_eq_true_eq] at hpr
          rw [existingSignaturesOf, ← hpr.2]
          exact List.mem_map_of_mem _ (List.mem_filter.mpr ⟨hr, by simp [hpr.1]⟩)
        have hnone : ((news.map fun r => (⟨sid', r⟩ : EmbeddingRecord)).filter p).length = 0 := by
          rw [List.length_eq_zero, List.filter_eq_nil_iff]
          intro x hx
          obtain ⟨r, hrmem, hrx⟩ := List.mem_map.mp hx
          have hns : getRequestSignature r ∉ existingSignaturesOf store sid' := by
            rcases selectRequests_mem calls [] _ r (hsel ▸ hrmem) with h2 | h2
            · exact absurd h2 (List.not_mem_nil r)
            · exact h2
          rw [hp]
          subst hrx
          simp only [Bool.and_eq_true, decide_eq_true_eq, not_and]
          intro _ hcsig
          exact hns (hcsig ▸ hsigmem)
        rw [hnone]
        simpa using hstore sid' sig
      · have hstore0 : (store.filter p).length = 0 := by
          rw [List.length_eq_zero, List.filter_eq_nil_iff]
          intro x hx hc
          exact hin ⟨x, hx, hc⟩
        rw [hstore0]
        have hndnews : (news.map getRequestSignature).Nodup :=
          (hsub.map getRequestSignature).nodup hnd
        rw [hp, filter_map_session_length sid' sig news]
        simpa using length_filter_le_one_of_nodup_map news hndnews sig
    · have hnone : ((news.map fun r => (⟨sid, r⟩ : EmbeddingRecord)).filter fun r =>
          decide (r.sessionId = sid') && decide (getRequestSignature r.requestData = sig)).length
          = 0 := by
        rw [List.length_eq_zero, List.filter_eq_nil_iff]
        intro x hx
        obtain ⟨r, hrmem, hrx⟩ := List.mem_map.mp hx
        subst hrx
        simp only [Bool.and_eq_true, decide_eq_true_eq, not_and]
        intro hcsid
        exact absurd hcsid.symm (by simpa using hsid)
      rw [hnone]
      simpa using hstore sid' sig

/-- Witness for C6: one fresh call against an empty store preserves the
invariant, and the selected request's signature was not previously stored. -/
theorem c6_witness :
    AtMostOnePerSig [] ∧
    ([RequestData.mk "h" "/p" "GET" [] none].map getRequestSignature).Nodup ∧
    AtMostOnePerSig
      (processNetworkCallsStore [] [RequestData.mk "h" "/p" "GET" [] none] "s") :=
  ⟨fun _ _ => by simp [sigCount], by decide,
    c6_embedding_idempotency.2 [] [RequestData.mk "h" "/p" "GET" [] none] "s"
      (fun _ _ => by simp [sigCount]) (by decide)⟩

/-! ## Lemmas: the insertion-ordered map model (C7) -/

theorem mapFind_cons (a : String × ε) (t : List (String × ε)) (k : String) :
    mapFind (a :: t) k = if a.1 = k then some a.2 else mapFind t k := by
  by_cases h : a.1 = k
  · simp [mapFind, List.find?, h]
  · simp [mapFind, List.find?, h]

theorem mapSet_cons_ne (a : String × ε) (t : List (String × ε)) (k : String) (v : ε)
    (ha : a.1 ≠ k) : mapSet (a :: t) k v = a :: mapSet t k v := by
  by_cases hin : (t.find? fun p => p.1 = k).isSome
  · simp [mapSet, List.find?, hin, ha]
  · simp [mapSet, List.find?, hin, ha]

theorem mapSet_cons_eq (a : String × ε) (t : List (String × ε)) (k : String) (v : ε)
    (ha : a.1 = k) :
    mapSet (a :: t) k v = (k, v) :: t.map fun p => if p.1 = k then (k, v) else p := by
  simp [mapSet, List.find?, ha]

theorem mapFind_map_replace (k k₂ : String) (v : ε) (hne : k ≠ k₂) :
    ∀ t : List (String × ε),
      mapFind (t.map fun p => if p.1 = k then (k, v) else p) k₂ = mapFind t k₂
  | [] => rfl
  | a :: t => by
    by_cases ha : a.1 = k
    · rw [List.map_cons, if_pos ha, mapFind_cons, mapFind_cons, if_neg hne,
        if_neg (ha ▸ hne), mapFind_map_replace k k₂ v hne t]
    · rw [List.map_cons, if_neg ha, mapFind_cons, mapFind_cons,
        mapFind_map_replace k k₂ v hne t]

theorem mapFind_mapSet_self : ∀ (m : List (String × ε)) (k : String) (v : ε),
    mapFind (mapSet m k v) k = some v
  | [], k, v => by simp [mapSet, mapFind, List.find?]
  | a :: t, k, v => by
    by_cases ha : a.1 = k
    · rw [mapSet_cons_eq a t k v ha, mapFind_cons]
      simp
    · rw [mapSet_cons_ne a t k v ha, mapFind_cons, if_neg ha, mapFind_mapSet_self t k v]

theorem mapFind_mapSet_ne : ∀ (m : List (String × ε)) (k k₂ : String) (v : ε), k ≠ k₂ →
    mapFind (mapSet m k v) k₂ = mapFind m k₂
  | [], k, k₂, v, hne => by simp [mapSet, mapFind, List.find?, hne]
  | a :: t, k, k₂, v, hne => by
    by_cases ha : a.1 = k
    · rw [mapSet_cons_eq a t k v ha, mapFind_cons, if_neg hne, mapFind_cons,
        if_neg (ha ▸ hne), mapFind_map_replace k k₂ v hne t]
    · rw [mapSet_cons_ne a t k v ha, mapFind_cons, mapFind_cons,
        mapFind_mapSet_ne t k k₂ v hne]

theorem mapSet_keys (m : List (String × ε)) (k : String) (v : ε) :
    (mapSet m k v).map Prod.fst = m.map Prod.fst ∨
    ((mapSet m k v).map Prod.fst = m.map Prod.fst ++ [k] ∧ k ∉ m.map Prod.fst) := by
  by_cases hin : (m.find? fun p => p.1 = k).isSome
  · left
    rw [mapSet, if_pos hin, List.map_map]
    apply List.map_congr_left
    intro p _
    by_cases hp : p.1 = k
    · simp [hp]
    · simp [hp]
  · right
    constructor
    · rw [mapSet, if_neg hin]
      simp
    · intro hc
      obtain ⟨p, hp, hpk⟩ := List.mem_map.mp hc
      have : (m.find? fun p => p.1 = k).isSome := by
        rw [List.find?_isSome]
        exact ⟨p, hp, by simp [hpk]⟩
      exact hin this

theorem mapSet_nodup_keys (m : List (String × ε)) (k : String) (v : ε)
    (h : (m.map Prod.fst).Nodup) : ((mapSet m k v).map Prod.fst).Nodup := by
  rcases mapSet_keys m k v with h2 | ⟨h2, h3⟩
  · rwa [h2]
  · rw [h2]
    simp [List.nodup_append, h, h3]

/-! ## Lemmas: consolidation fold characterization (C7) -/

theorem analyticsFold_nodup_keys :
    ∀ (l : List AnalyticsRecord) (m : List (String × AnalyticsOut)),
      ((m.map Prod.fst).Nodup) → (((l.foldl analyticsStep m).map Prod.fst).Nodup)
  | [], m, h => h
  | r :: rest, m, h => by
    rw [List.foldl_cons]
    refine analyticsFold_nodup_keys rest _ ?_
    unfold analyticsStep
    cases mapFind m (analyticsKey r) <;> exact mapSet_nodup_keys _ _ _ h

theorem techFold_nodup_keys :
    ∀ (l : List TechRecord) (m : List (String × TechEntry)),
      ((m.map Prod.fst).Nodup) → (((l.foldl techStep m).map Prod.fst).Nodup)
  | [], m, h => h
  | r :: rest, m, h => by
    rw [List.foldl_cons]
    refine techFold_nodup_keys rest _ ?_
    unfold techStep
    cases mapFind m (techKey r) <;> exact mapSet_nodup_keys _ _ _ h

theorem analyticsFold_char :
    ∀ (l : List AnalyticsRecord) (m : List (String × AnalyticsOut)) (k : String)
      (g0 : List AnalyticsRecord),
      (∀ e, mapFind m k = some e → e.occurrences = g0.length) →
      (mapFind m k = none → g0 = []) →
      (∀ e, mapFind (l.foldl analyticsStep m) k = some e →
        e.occurrences = (g0 ++ l.filter fun r => decide (analyticsKey r = k)).length) ∧
      (mapFind (l.foldl analyticsStep m) k = none →
        (g0 ++ l.filter fun r => decide (analyticsKey r = k)) = [])
  | [], m, k, g0, hsome, hnone => by
    constructor
    · intro e he
      simpa using hsome e he
    · intro he
      simp [hnone he]
  | r :: rest, m, k, g0, hsome, hnone => by
    rw [List.foldl_cons]
    by_cases hk : analyticsKey r = k
    · rw [List.filter_cons, if_pos (by simpa using hk)]
      cases hfind : mapFind m (analyticsKey r) with
      | none =>
        have hg0 : g0 = [] := hnone (hk ▸ hfind)
        subst hg0
        have step : analyticsStep m r = mapSet m k (analyticsInit r) := by
          rw [analyticsStep, hfind, hk]
        rw [step]
        have main := analyticsFold_char rest (mapSet m k (analyticsInit r)) k ([] ++ [r])
          (fun e he => by
            rw [mapFind_mapSet_self] at he
            injection he with he2
            subst he2
            rfl)
          (fun he => absurd (he ▸ mapFind_mapSet_self m k (analyticsInit r)) (by simp))
        constructor
        · intro e he
          simpa using main.1 e he
        · intro he
          have h9 := main.2 he
          simp at h9
      | some e0 =>
        have hocc : e0.occurrences = g0.length := hsome e0 (hk ▸ hfind)
        have step : analyticsStep m r =
            mapSet m k { e0 with occurrences := e0.occurrences + 1 } := by
          rw [analyticsStep, hfind, hk]
        rw [step]
        have main := analyticsFold_char rest
          (mapSet m k { e0 with occurrences := e0.occurrences + 1 }) k (g0 ++ [r])
          (fun e he => by
            rw [mapFind_mapSet_self] at he
            injection he with he2
            subst he2
            simp [hocc])
          (fun he => absurd
            (he ▸ mapFind_mapSet_self m k { e0 with occurrences := e0.occurrences + 1 })
            (by simp))
        constructor
        · intro e he
          simpa using main.1 e he
        · intro he
          have h9 := main.2 he
          simp at h9
    · rw [List.filter_cons, if_neg (by simpa using hk)]
      have step : mapFind (analyticsStep m r) k = mapFind m k := by
        unfold analyticsStep
        cases mapFind m (analyticsKey r) <;>
          exact mapFind_mapSet_ne _ _ _ _ hk
      exact analyticsFold_char rest (analyticsStep m r) k g0
        (fun e he => hsome e (step ▸ he)) (fun he => hnone (step ▸ he))

theorem techFold_char :
    ∀ (l : List TechRecord) (m : List (String × TechEntry)) (k : String)
      (g0 : List TechRecord),
      (∀ e, mapFind m k = some e → e.occurrences = g0.length ∧
        (∀ r ∈ g0, r.confidence ≤ e.confidence) ∧
        (∃ r ∈ g0, r.confidence = e.confidence)) →
      (mapFind m k = none → g0 = []) →
      (∀ e, mapFind (l.foldl techStep m) k = some e →
        e.occurrences = (g0 ++ l.filter fun r => decide (techKey r = k)).length ∧
        (∀ r ∈ g0 ++ l.filter fun r => decide (techKey r = k),
          r.confidence ≤ e.confidence) ∧
        (∃ r ∈ g0 ++ l.filter fun r => decide (techKey r = k),
          r.confidence = e.confidence)) ∧
      (mapFind (l.foldl techStep m) k = none →
        (g0 ++ l.filter fun r => decide (techKey r = k)) = [])
  | [], m, k, g0, hsome, hnone => by
    constructor
    · intro e he
      simpa using hsome e he
    · intro he
      simp [hnone he]
  | r :: rest, m, k, g0, hsome, hnone => by
    rw [List.foldl_cons]
    by_cases hk : techKey r = k
    · rw [List.filter_cons, if_pos (by simpa using hk)]
      cases hfind : mapFind m (techKey r) with
      | none =>
        have hg0 : g0 = [] := hnone (hk ▸ hfind)
        subst hg0
        have step : techStep m r = mapSet m k (techInit r) := by
          rw [techStep, hfind, hk]
        rw [step]
        have main := techFold_char rest (mapSet m k (techInit r)) k ([] ++ [r])
          (fun e he => by
            rw [mapFind_mapSet_self] at he
            injection he with he2
            subst he2
            refine ⟨rfl, ?_, ?_⟩
            · intro r2 hr2
              have : r2 = r := by simpa using hr2
              subst this
              exact le_refl _
            · exact ⟨r, by simp, rfl⟩)
          (fun he => absurd (he ▸ mapFind_mapSet_self m k (techInit r)) (by simp))
        constructor
        · intro e he
          have := main.1 e he
          refine ⟨by simpa using this.1, ?_, ?_⟩
          · intro r2 hr2
            exact this.2.1 r2 (by simpa using hr2)
          · obtain ⟨r2, hr2, hr2c⟩ := this.2.2
            exact ⟨r2, by simpa using hr2, hr2c⟩
        · intro he
          have h9 := main.2 he
          simp at h9
      | some e0 =>
        obtain ⟨hocc, hbound, hex⟩ := hsome e0 (hk ▸ hfind)
        have step : techStep m r = mapSet m k (techMerge e0 r) := by
          rw [techStep, hfind, hk]
        rw [step]
        have main := techFold_char rest (mapSet m k (techMerge e0 r)) k (g0 ++ [r])
          (fun e he => by
            rw [mapFind_mapSet_self] at he
            injection he with he2
            subst he2
            refine ⟨by simp [techMerge, hocc], ?_, ?_⟩
            · intro r2 hr2
              rcases List.mem_append.mp hr2 with h2 | h2
              · exact le_trans (hbound r2 h2) (le_max_left _ _)
              · have : r2 = r := by simpa using h2
                subst this
                exact le_max_right _ _
            · rcases max_choice e0.confidence r.confidence with hmax | hmax
              · obtain ⟨r2, hr2, hr2c⟩ := hex
                exact ⟨r2, List.mem_append_left _ hr2, by simp [techMerge, hmax, hr2c]⟩
              · exact ⟨r, List.mem_append_right _ (by simp), by simp [techMerge, hmax]⟩)
          (fun he => absurd (he ▸ mapFind_mapSet_self m k (techMerge e0 r)) (by simp))
        constructor
        · intro e he
          have := main.1 e he
          refine ⟨by simpa using this.1, ?_, ?_⟩
          · intro r2 hr2
            exact this.2.1 r2 (by simpa using hr2)
          · obtain ⟨r2, hr2, hr2c⟩ := this.2.2
            exact ⟨r2, by simpa using hr2, hr2c⟩
        · intro he
          have h9 := main.2 he
          simp at h9
    · rw [List.filter_cons, if_neg (by simpa using hk)]
      have step : mapFind (techStep m r) k = mapFind m k := by
        unfold techStep
        cases mapFind m (techKey r) <;>
          exact mapFind_mapSet_ne _ _ _ _ hk
      exact techFold_char rest (techStep m r) k g0
        (fun e he => hsome e (step ▸ he)) (fun he => hnone (step ▸ he))

/-! ## Claim C7: consolidation dedup keys and merge -/

/-- C7 counterexample: the analytics dedup key is not
provider+event_name+request_url — it also includes page_url and notes.  Two
records agreeing on provider, event name, page URL and request URL but
differing in notes do not collapse: consolidation returns two records, each
with one occurrence. -/
theorem c7_counterexample :
    dedupeAnalyticsRecords
      [AnalyticsRecord.mk "ga" "click" "p" "u" "x",
       AnalyticsRecord.mk "ga" "click" "p" "u" "y"] =
      [AnalyticsOut.mk "ga" "click" "p" "u" "x" 1,
       AnalyticsOut.mk "ga" "click" "p" "u" "y" 1] ∧
    (dedupeAnalyticsRecords
      [AnalyticsRecord.mk "ga" "click" "p" "u" "x",
       AnalyticsRecord.mk "ga" "click" "p" "u" "y"]).length ≠ 1 := by
  refine ⟨by decide, by decide⟩

/-- C7 (amended): consolidation merges by composite key — name+category for
tech items, but provider+event_name+page_url+request_url+notes (all
lower-cased) for analytics events.  Per key there is exactly one consolidated
entry (the key lists of both dedup maps are duplicate-free, so two records
equal on the full key always collapse), its occurrence count is the number
of raw records with that key, and a tech entry's confidence is the maximum
confidence among its merged records (rendered through `toFixed(2)` in the
output row). -/
theorem c7_consolidation :
    (∀ (records : List AnalyticsRecord) (k : String) (e : AnalyticsOut),
      mapFind (records.foldl analyticsStep []) k = some e →
      e ∈ dedupeAnalyticsRecords records ∧
      e.occurrences = (records.filter fun r => decide (analyticsKey r = k)).length) ∧
    (∀ (records : List AnalyticsRecord) (k : String),
      mapFind (records.foldl analyticsStep []) k = none →
      (records.filter fun r => decide (analyticsKey r = k)) = []) ∧
    (∀ records : List AnalyticsRecord,
      (((records.foldl analyticsStep []).map Prod.fst).Nodup)) ∧
    (∀ (records : List TechRecord) (k : String) (e : TechEntry),
      mapFind (records.foldl techStep []) k = some e →
      (⟨e.name, e.category, toFixed2 e.confidence, e.occurrences,
        String.intercalate " | " e.evidence⟩ : TechOut) ∈ dedupeTechRecords records ∧
      e.occurrences = (records.filter fun r => decide (techKey r = k)).length ∧
      (∀ r ∈ records.filter fun r => decide (techKey r = k),
        r.confidence ≤ e.confidence) ∧
      (∃ r ∈ records.filter fun r => decide (techKey r = k),
        r.confidence = e.confidence)) ∧
    (∀ records : List TechRecord, (((records.foldl techStep []).map Prod.fst).Nodup)) := by
  refine ⟨?_, ?_, ?_, ?_, ?_⟩
  · intro records k e he
    constructor
    · have hmem : (k, e) ∈ records.foldl analyticsStep [] := by
        rcases hf : (records.foldl analyticsStep []).find? fun p => p.1 = k with _ | p
        · rw [mapFind, hf] at he
          exact absurd he (by simp)
        · rw [mapFind, hf] at he
          have hp := List.mem_of_find?_eq_some hf
          have hk : p.1 = k := by
            have := List.find?_some hf
            simpa using this
          have hpe : p.2 = e := by simpa using he
          have : p = (k, e) := Prod.ext hk hpe
          rwa [this] at hp
      rw [dedupeAnalyticsRecords]
      exact List.mem_map.mpr ⟨(k, e), hmem, rfl⟩
    · have := (analyticsFold_char records [] k []
        (fun e2 he2 => absurd he2 (by simp [mapFind, List.find?]))
        (fun _ => rfl)).1 e he
      simpa using this
  · intro records k he
    have := (analyticsFold_char records [] k []
      (fun e2 he2 => absurd he2 (by simp [mapFind, List.find?]))
      (fun _ => rfl)).2 he
    simpa using this
  · intro records
    exact analyticsFold_nodup_keys records [] (by simp)
  · intro records k e he
    refine ⟨?_, ?_⟩
    · have hmem : (k, e) ∈ records.foldl techStep [] := by
        rcases hf : (records.foldl techStep []).find? fun p => p.1 = k with _ | p
        · rw [mapFind, hf] at he
          exact absurd he (by simp)
        · rw [mapFind, hf] at he
          have hp := List.mem_of_find?_eq_some hf
          have hk : p.1 = k := by
            have := List.find?_some hf
            simpa using this
          have hpe : p.2 = e := by simpa using he
          have : p = (k, e) := Prod.ext hk hpe
          rwa [this] at hp
      rw [dedupeTechRecords]
      exact List.mem_map.mpr ⟨(k, e), hmem, rfl⟩
    · have main := (techFold_char records [] k []
        (fun e2 he2 => absurd he2 (by simp [mapFind, List.find?]))
        (fun _ => rfl)).1 e he
      refine ⟨by simpa using main.1, ?_, ?_⟩
      · intro r hr
        exact main.2.1 r (by simpa using hr)
      · obtain ⟨r, hr, hrc⟩ := main.2.2
        exact ⟨r, by simpa using hr, hrc⟩
  · intro records
    exact techFold_nodup_keys records [] (by simp)

/-- Witness for C7: two identical analytics records collapse to one entry
with two occurrences. -/
theorem c7_witness :
    mapFind
      ([AnalyticsRecord.mk "ga" "click" "p" "u" "x",
        AnalyticsRecord.mk "ga" "click" "p" "u" "x"].foldl analyticsStep [])
      (analyticsKey (AnalyticsRecord.mk "ga" "click" "p" "u" "x")) =
      some (AnalyticsOut.mk "ga" "click" "p" "u" "x" 2) ∧
    AnalyticsOut.mk "ga" "click" "p" "u" "x" 2 ∈
      dedupeAnalyticsRecords
        [AnalyticsRecord.mk "ga" "click" "p" "u" "x",
         AnalyticsRecord.mk "ga" "click" "p" "u" "x"] ∧
    (AnalyticsOut.mk "ga" "click" "p" "u" "x" 2).occurrences =
      ([AnalyticsRecord.mk "ga" "click" "p" "u" "x",
        AnalyticsRecord.mk "ga" "click" "p" "u" "x"].filter fun r =>
        decide (analyticsKey r = analyticsKey (AnalyticsRecord.mk "ga" "click" "p" "u" "x"))).length :=
  ⟨by decide,
    (c7_consolidation.1
      [AnalyticsRecord.mk "ga" "click" "p" "u" "x",
       AnalyticsRecord.mk "ga" "click" "p" "u" "x"]
      (analyticsKey (AnalyticsRecord.mk "ga" "click" "p" "u" "x"))
      (AnalyticsOut.mk "ga" "click" "p" "u" "x" 2) (by decide)).1,
    (c7_consolidation.1
      [AnalyticsRecord.mk "ga" "click" "p" "u" "x",
       AnalyticsRecord.mk "ga" "click" "p" "u" "x"]
      (analyticsKey (AnalyticsRecord.mk "ga" "click" "p" "u" "x"))
      (AnalyticsOut.mk "ga" "click" "p" "u" "x" 2) (by decide)).2⟩

/-! ## Claim C9: retry semantics of the completion call -/

theorem runBatches_append (pre post : List (Except String ρ)) :
    runBatches (pre ++ post) = runBatches pre ++ runBatches post := by
  induction pre with
  | nil => rfl
  | cons a t ih =>
    cases a with
    | ok r => simp [runBatches, ih]
    | error e => simp [runBatches, ih]

/-- C9: the completion call is attempted up to `MAX_RETRIES = 3` times.  A
run whose attempts all fail with network-class errors sleeps the backoff
sequence `[2000, 4000]` before its two retries and then surfaces a terminal
error; a run failing with non-network errors sleeps `[500, 1000]`; the
backoff doubles from one retry to the next (exponential) and the
network-class backoff strictly dominates the other; a first-attempt success
returns immediately with no backoff; and the batch loop is failure-isolating
— a failed batch contributes nothing but every following batch is still
processed and stored. -/
theorem c9_retry_semantics :
    (∀ (ρ : Type) (outcomes : ℕ → CallOutcome ρ),
      (∀ n, ∃ m, outcomes n = .err m ∧ isNetworkErrorMsg m = true) →
      (∃ e, (callGemini outcomes).1 = .error e) ∧
        (callGemini outcomes).2 = [2000 * 1, 2000 * 2]) ∧
    (∀ (ρ : Type) (outcomes : ℕ → CallOutcome ρ),
      (∀ n, ∃ m, outcomes n = .err m ∧ isNetworkErrorMsg m = false) →
      (∃ e, (callGemini outcomes).1 = .error e) ∧
        (callGemini outcomes).2 = [500 * 1, 500 * 2]) ∧
    (∀ (ρ : Type) (outcomes : ℕ → CallOutcome ρ) (r : ρ),
      outcomes 1 = .ok r → callGemini outcomes = (.ok r, [])) ∧
    (2000 * 2 = 2 * (2000 * 1) ∧ 500 * 2 = 2 * (500 * 1) ∧
      500 * 1 < 2000 * 1 ∧ 500 * 2 < 2000 * 2) ∧
    (∀ (ρ : Type) (pre post : List (Except String ρ)) (e : String),
      runBatches (pre ++ .error e :: post) = runBatches pre ++ runBatches post) := by
  refine ⟨?_, ?_, ?_, ⟨by norm_num, by norm_num, by norm_num, by norm_num⟩, ?_⟩
  · intro ρ outcomes h
    obtain ⟨m1, hm1, hn1⟩ := h 1
    obtain ⟨m2, hm2, hn2⟩ := h 2
    obtain ⟨m3, hm3, hn3⟩ := h 3
    rw [callGemini]
    rw [show MAX_RETRIES = 3 from rfl]
    simp only [callGeminiF, hm1, hm2, hm3, backoffDelay, hn1, hn2, MAX_RETRIES]
    norm_num
  · intro ρ outcomes h
    obtain ⟨m1, hm1, hn1⟩ := h 1
    obtain ⟨m2, hm2, hn2⟩ := h 2
    obtain ⟨m3, hm3, hn3⟩ := h 3
    rw [callGemini]
    rw [show MAX_RETRIES = 3 from rfl]
    simp only [callGeminiF, hm1, hm2, hm3, backoffDelay, hn1, hn2, MAX_RETRIES]
    norm_num
  · intro ρ outcomes r h
    rw [callGemini, show MAX_RETRIES = 3 from rfl]
    simp [callGeminiF, h]
  · intro ρ pre post e
    rw [runBatches_append]
    rfl

/-- Witness for C9: every attempt fails with a `NetworkError` message; the
call backs off 2000 ms then 4000 ms and surfaces a terminal error. -/
theorem c9_witness :
    (∃ e, (callGemini (fun _ => CallOutcome.err (ρ := Unit) "NetworkError: boom")).1 =
      .error e) ∧
    (callGemini (fun _ => CallOutcome.err (ρ := Unit) "NetworkError: boom")).2 =
      [2000 * 1, 2000 * 2] :=
  c9_retry_semantics.1 Unit (fun _ => CallOutcome.err "NetworkError: boom")
    (fun _ => ⟨"NetworkError: boom", rfl, by decide⟩)

/-! ## Claim C10: trimming floor of `trimPayloadToLimit` -/

theorem trimPagesLoop_head :
    ∀ (fuel : ℕ) (payload : BatchPayload) (maxTokens : ℕ) (pages : List PayloadPage),
      pages ≠ [] →
      trimPagesLoop fuel payload maxTokens pages ≠ [] ∧
      (trimPagesLoop fuel payload maxTokens pages).head? = pages.head?
  | 0, _, _, pages, h => ⟨h, rfl⟩
  | fuel + 1, payload, maxTokens, pages, h => by
    rw [trimPagesLoop]
    split
    · rename_i hcond
      have hlen : 1 < pages.length := hcond.1
      have hne : pages.dropLast ≠ [] := by
        have : pages.dropLast.length = pages.length - 1 := List.length_dropLast pages
        intro hc
        rw [hc] at this
        simp at this
        omega
      have hhead : pages.dropLast.head? = pages.head? := by
        rcases pages with _ | ⟨a, t⟩
        · simp at h
        · rcases t with _ | ⟨b, t2⟩
          · simp at hlen
          · simp [List.dropLast]
      obtain ⟨h1, h2⟩ := trimPagesLoop_head fuel payload maxTokens pages.dropLast hne
      exact ⟨h1, h2.trans hhead⟩
    · exact ⟨h, rfl⟩

theorem trimRequestsLoop_ne_nil :
    ∀ (fuel : ℕ) (payload : BatchPayload) (maxTokens : ℕ) (page : PayloadPage),
      page.requests ≠ [] →
      (trimRequestsLoop fuel payload maxTokens page).requests ≠ []
  | 0, _, _, _, h => h
  | fuel + 1, payload, maxTokens, page, h => by
    rw [trimRequestsLoop]
    split
    · rename_i hcond
      have hlen : 1 < page.requests.length := hcond.1
      refine trimRequestsLoop_ne_nil fuel payload maxTokens _ ?_
      intro hc
      have hc2 : page.requests.dropLast = [] := hc
      have hl2 : page.requests.dropLast.length = page.requests.length - 1 :=
        List.length_dropLast _
      rw [hc2, List.length_nil] at hl2
      omega
    · exact h

theorem updatePayloadSummary_pages (p : BatchPayload) :
    (updatePayloadSummary p).pages = p.pages := rfl

/-- C10 counterexample: the floor only guarantees a page, not a request.  A
payload whose sole page has no requests is returned (trimmed) with that page
still empty, so the result contains no page with at least one request. -/
theorem c10_counterexample :
    (trimPayloadToLimit (BatchPayload.mk [PayloadPage.mk "p" []] ⟨0, 0, 0⟩) 0).pages =
      [PayloadPage.mk "p" []] ∧
    ¬ ∃ p ∈ (trimPayloadToLimit (BatchPayload.mk [PayloadPage.mk "p" []] ⟨0, 0, 0⟩) 0).pages,
      p.requests ≠ [] := by
  refine ⟨by decide, by decide⟩

/-- C10 (amended): for a payload with a nonempty pages list,
`trimPayloadToLimit` always keeps at least one page — the page loop stops at
one page and the request loop stops at one request, even when the estimate
still exceeds the budget — and provided the first page has at least one
request the result also keeps a page with at least one request (trimming
drops pages from the end, so the first page is the survivor). -/
theorem c10_trim_floor :
    ∀ (payload : BatchPayload) (maxTokens : ℕ),
      payload.pages ≠ [] →
      (trimPayloadToLimit payload maxTokens).pages ≠ [] ∧
      (∀ p0, payload.pages.head? = some p0 → p0.requests ≠ [] →
        ∃ p ∈ (trimPayloadToLimit payload maxTokens).pages, p.requests ≠ []) := by
  intro payload maxTokens hne
  rw [trimPayloadToLimit]
  split
  · rename_i hempty
    exact absurd (List.isEmpty_iff.mp hempty) hne
  · split
    · refine ⟨hne, ?_⟩
      intro p0 hp0 hreq
      exact ⟨p0, List.mem_of_mem_head? hp0, hreq⟩
    · obtain ⟨htrim_ne, htrim_head⟩ :=
        trimPagesLoop_head payload.pages.length payload maxTokens payload.pages hne
      dsimp only
      split
      · rename_i hcond
        rcases hmatch : trimPagesLoop payload.pages.length payload maxTokens payload.pages
          with _ | ⟨page, rest⟩
        · exact absurd hmatch htrim_ne
        · have hrest : rest = [] := by
            have := hcond.2
            rw [hmatch] at this
            simpa using this
          subst hrest
          refine ⟨by simp [updatePayloadSummary_pages], ?_⟩
          intro p0 hp0 hreq
          have hpage : page = p0 := by
            rw [hmatch] at htrim_head
            rw [hp0] at htrim_head
            simpa using htrim_head
          subst hpage
          refine ⟨trimRequestsLoop page.requests.length payload maxTokens page, ?_, ?_⟩
          · simp [updatePayloadSummary_pages]
          · exact trimRequestsLoop_ne_nil _ _ _ _ hreq
      · refine ⟨by simpa [updatePayloadSummary_pages] using htrim_ne, ?_⟩
        intro p0 hp0 hreq
        rcases hmatch : trimPagesLoop payload.pages.length payload maxTokens payload.pages
          with _ | ⟨page, rest⟩
        · exact absurd hmatch htrim_ne
        · have hpage : page = p0 := by
            rw [hmatch] at htrim_head
            rw [hp0] at htrim_head
            simpa using htrim_head
          subst hpage
          refine ⟨page, ?_, hreq⟩
          simp [updatePayloadSummary_pages, hmatch]

/-- Witness for C10: a one-page, one-request payload keeps its page and
request under a zero budget. -/
theorem c10_witness :
    (trimPayloadToLimit
      (BatchPayload.mk
        [PayloadPage.mk "p" [PayloadRequest.mk "https://h/x" "GET" "h" "/x" [] none]]
        ⟨1, 0, 1⟩) 0).pages ≠ [] ∧
    ∃ p ∈ (trimPayloadToLimit
      (BatchPayload.mk
        [PayloadPage.mk "p" [PayloadRequest.mk "https://h/x" "GET" "h" "/x" [] none]]
        ⟨1, 0, 1⟩) 0).pages, p.requests ≠ [] :=
  ⟨(c10_trim_floor
      (BatchPayload.mk
        [PayloadPage.mk "p" [PayloadRequest.mk "https://h/x" "GET" "h" "/x" [] none]]
        ⟨1, 0, 1⟩) 0 (by decide)).1,
    (c10_trim_floor
      (BatchPayload.mk
        [PayloadPage.mk "p" [PayloadRequest.mk "https://h/x" "GET" "h" "/x" [] none]]
        ⟨1, 0, 1⟩) 0 (by decide)).2
      (PayloadPage.mk "p" [PayloadRequest.mk "https://h/x" "GET" "h" "/x" [] none])
      rfl (by decide)⟩

/-! ## Lemmas: heap indexing and permutation (C4) -/

section HeapLemmas

variable {α β : Type} [LinearOrder β] [Inhabited α] [Inhabited β]

theorem atI_set_self (h : List (HeapItem α β)) (i : ℕ) (x : HeapItem α β)
    (hi : i < h.length) : atI (h.set i x) i = x := by
  rw [atI, List.getElem?_set_self (by simpa using hi)]
  rfl

theorem atI_set_ne (h : List (HeapItem α β)) (i j : ℕ) (x : HeapItem α β)
    (hij : i ≠ j) : atI (h.set i x) j = atI h j := by
  rw [atI, List.getElem?_set_ne hij, atI]

theorem length_swapL (h : List (HeapItem α β)) (i j : ℕ) :
    (swapL h i j).length = h.length := by
  simp [swapL]

theorem atI_swapL (h : List (HeapItem α β)) (i j k : ℕ)
    (hi : i < h.length) (hj : j < h.length) :
    atI (swapL h i j) k = if k = j then atI h i else if k = i then atI h j else atI h k := by
  rw [swapL]
  by_cases hkj : k = j
  · subst hkj
    rw [if_pos rfl, atI_set_self]
    simpa using hj
  · rw [if_neg hkj, atI_set_ne _ _ _ _ (fun hc => hkj hc.symm)]
    by_cases hki : k = i
    · subst hki
      rw [if_pos rfl, atI_set_self _ _ _ hi]
    · rw [if_neg hki, atI_set_ne _ _ _ _ (fun hc => hki hc.symm)]

theorem simI_swapL (h : List (HeapItem α β)) (i j k : ℕ)
    (hi : i < h.length) (hj : j < h.length) :
    simI (swapL h i j) k =
      if k = j then simI h i else if k = i then simI h j else simI h k := by
  rw [simI, atI_swapL h i j k hi hj]
  split_ifs <;> rfl

theorem perm_cons_set :
    ∀ (t : List (HeapItem α β)) (j : ℕ) (a : HeapItem α β), j < t.length →
      (atI t j :: t.set j a).Perm (a :: t)
  | [], j, a, hj => by simp at hj
  | b :: t, 0, a, hj => by
    have h1 : atI (b :: t) 0 = b := by simp [atI]
    rw [h1, List.set_cons_zero]
    exact List.Perm.swap a b t
  | b :: t, j + 1, a, hj => by
    have h1 : atI (b :: t) (j + 1) = atI t j := by simp [atI]
    rw [h1, List.set_cons_succ]
    exact ((List.Perm.swap b (atI t j) (t.set j a)).trans
      ((perm_cons_set t j a (by simpa using hj)).cons b)).trans
      (List.Perm.swap a b t)

theorem perm_swapL :
    ∀ (h : List (HeapItem α β)) (i j : ℕ), i < h.length → j < h.length →
      (swapL h i j).Perm h
  | [], i, j, hi, _ => by simp at hi
  | a :: t, 0, 0, hi, hj => by
    have : swapL (a :: t) 0 0 = a :: t := by
      simp [swapL, atI]
    rw [this]
  | a :: t, 0, j + 1, hi, hj => by
    have : swapL (a :: t) 0 (j + 1) = atI t j :: t.set j a := by
      simp [swapL, atI, List.set_cons_succ]
    rw [this]
    exact perm_cons_set t j a (by simpa using hj)
  | a :: t, i + 1, 0, hi, hj => by
    have : swapL (a :: t) (i + 1) 0 = atI t i :: t.set i a := by
      simp [swapL, atI, List.set_cons_succ]
    rw [this]
    exact perm_cons_set t i a (by simpa using hi)
  | a :: t, i + 1, j + 1, hi, hj => by
    have : swapL (a :: t) (i + 1) (j + 1) = a :: swapL t i j := by
      simp [swapL, atI, List.set_cons_succ]
    rw [this]
    exact (perm_swapL t i j (by simpa using hi) (by simpa using hj)).cons a

theorem length_bubbleUp :
    ∀ (fuel : ℕ) (h : List (HeapItem α β)) (i : ℕ),
      (bubbleUp fuel h i).length = h.length
  | 0, _, _ => rfl
  | fuel + 1, h, i => by
    rw [bubbleUp]
    split
    · rfl
    · split
      · rfl
      · rw [length_bubbleUp fuel, length_swapL]

theorem perm_bubbleUp :
    ∀ (fuel : ℕ) (h : List (HeapItem α β)) (i : ℕ), i < h.length →
      (bubbleUp fuel h i).Perm h
  | 0, _, _, _ => List.Perm.refl _
  | fuel + 1, h, i, hi => by
    rw [bubbleUp]
    split
    · exact List.Perm.refl _
    · split
      · exact List.Perm.refl _
      · rename_i hne _
        have hpar : (i - 1) / 2 < h.length := lt_of_le_of_lt (by omega) hi
        exact ((perm_bubbleUp fuel _ _ (by rw [length_swapL]; exact hpar)).trans
          (perm_swapL h _ i hpar hi))

theorem minChildSel_lt_length (h : List (HeapItem α β)) (i : ℕ) (hi : i < h.length) :
    minChildSel h i < h.length := by
  rw [minChildSel]
  by_cases h1 : 2 * i + 1 < h.length ∧ simI h (2 * i + 1) < simI h i
  · rw [if_pos h1]
    by_cases h2 : 2 * i + 2 < h.length ∧ simI h (2 * i + 2) < simI h (2 * i + 1)
    · rw [if_pos h2]
      exact h2.1
    · rw [if_neg h2]
      exact h1.1
  · rw [if_neg h1]
    by_cases h2 : 2 * i + 2 < h.length ∧ simI h (2 * i + 2) < simI h i
    · rw [if_pos h2]
      exact h2.1
    · rw [if_neg h2]
      exact hi

theorem length_bubbleDown :
    ∀ (fuel : ℕ) (h : List (HeapItem α β)) (i : ℕ),
      (bubbleDown fuel h i).length = h.length
  | 0, _, _ => rfl
  | fuel + 1, h, i => by
    rw [bubbleDown]
    split
    · rfl
    · rw [length_bubbleDown fuel, length_swapL]

theorem perm_bubbleDown :
    ∀ (fuel : ℕ) (h : List (HeapItem α β)) (i : ℕ), i < h.length →
      (bubbleDown fuel h i).Perm h
  | 0, _, _, _ => List.Perm.refl _
  | fuel + 1, h, i, hi => by
    rw [bubbleDown]
    split
    · exact List.Perm.refl _
    · have hs2 : minChildSel h i < h.length := minChildSel_lt_length h i hi
      exact ((perm_bubbleDown fuel _ _ (by rw [length_swapL]; exact hs2)).trans
        (perm_swapL h i _ hi hs2))

end HeapLemmas

/-! ## Lemmas: heap shape invariants (C4) -/

section HeapInvariantLemmas

variable {α β : Type} [LinearOrder β] [Inhabited α] [Inhabited β]

theorem siftUpInv_done (h : List (HeapItem α β)) (hole : ℕ) (inv : SiftUpInv h hole)
    (hdom : simI h ((hole - 1) / 2) ≤ simI h hole) : IsMinHeapL h := by
  intro c hc hlen
  by_cases hch : c = hole
  · subst hch
    exact hdom
  · exact inv.heapEx c hc hlen hch

theorem siftUpInv_root (h : List (HeapItem α β)) (inv : SiftUpInv h 0) : IsMinHeapL h := by
  intro c hc hlen
  exact inv.heapEx c hc hlen (by omega)

theorem siftUpInv_swap (h : List (HeapItem α β)) (hole : ℕ) (inv : SiftUpInv h hole)
    (hpos : 0 < hole) (hlt : ¬ simI h ((hole - 1) / 2) ≤ simI h hole) :
    SiftUpInv (swapL h ((hole - 1) / 2) hole) ((hole - 1) / 2) := by
  have hhole : hole < h.length := inv.bounded
  have hplt : (hole - 1) / 2 < hole := by omega
  have hp : (hole - 1) / 2 < h.length := lt_trans hplt hhole
  have hx : simI h hole < simI h ((hole - 1) / 2) := lt_of_not_le hlt
  have hsw : ∀ k, simI (swapL h ((hole - 1) / 2) hole) k =
      if k = hole then simI h ((hole - 1) / 2)
      else if k = (hole - 1) / 2 then simI h hole else simI h k :=
    fun k => simI_swapL h ((hole - 1) / 2) hole k hp hhole
  have hlen : (swapL h ((hole - 1) / 2) hole).length = h.length := length_swapL h _ _
  refine ⟨by rw [hlen]; exact hp, ?_, ?_⟩
  · intro c hc hclen hcp
    rw [hlen] at hclen
    rw [hsw c, hsw ((c - 1) / 2)]
    by_cases hch : c = hole
    · subst hch
      rw [if_pos rfl, if_neg (by omega : ¬ (c - 1) / 2 = c), if_pos rfl]
      exact le_of_lt hx
    · rw [if_neg hch]
      by_cases hpc : (c - 1) / 2 = hole
      · rw [if_pos hpc, if_neg hcp]
        exact inv.bridge c hc hclen hpc
      · rw [if_neg hpc]
        by_cases hpc2 : (c - 1) / 2 = (hole - 1) / 2
        · rw [if_pos hpc2, if_neg hcp]
          exact le_trans (le_of_lt hx) (hpc2 ▸ inv.heapEx c hc hclen hch)
        · rw [if_neg hpc2, if_neg hcp]
          exact inv.heapEx c hc hclen hch
  · intro c hc hclen hcp
    rw [hlen] at hclen
    rw [hsw c, hsw (((hole - 1) / 2 - 1) / 2)]
    by_cases hp0 : (hole - 1) / 2 = 0
    · rw [hp0] at hcp ⊢
      rw [if_neg (by omega : ¬ (0 - 1) / 2 = hole), if_pos (by omega : (0 - 1) / 2 = 0)]
      by_cases hch : c = hole
      · subst hch
        rw [if_pos rfl]
        exact le_of_lt (hp0 ▸ hx)
      · rw [if_neg hch, if_neg (by omega : ¬ c = 0)]
        refine le_trans (le_of_lt hx) ?_
        have := inv.heapEx c hc hclen hch
        rwa [hcp, ← hp0] at this
        -- sim h ((c-1)/2) = sim h 0 = sim h ((hole-1)/2)
    · have hgp : ((hole - 1) / 2 - 1) / 2 < (hole - 1) / 2 := by omega
      rw [if_neg (by omega : ¬ ((hole - 1) / 2 - 1) / 2 = hole),
        if_neg (by omega : ¬ ((hole - 1) / 2 - 1) / 2 = (hole - 1) / 2)]
      have hedge : simI h (((hole - 1) / 2 - 1) / 2) ≤ simI h ((hole - 1) / 2) :=
        inv.heapEx ((hole - 1) / 2) (by omega) hp (by omega)
      by_cases hch : c = hole
      · subst hch
        rw [if_pos rfl]
        exact hedge
      · rw [if_neg hch, if_neg (by omega : ¬ c = (hole - 1) / 2)]
        refine le_trans hedge ?_
        have := inv.heapEx c hc hclen hch
        rwa [hcp] at this

theorem bubbleUp_minHeap :
    ∀ (fuel : ℕ) (h : List (HeapItem α β)) (hole : ℕ), hole ≤ fuel →
      SiftUpInv h hole → IsMinHeapL (bubbleUp fuel h hole)
  | 0, h, hole, hfuel, inv => by
    have : hole = 0 := by omega
    subst this
    exact siftUpInv_root h inv
  | fuel + 1, h, hole, hfuel, inv => by
    rw [bubbleUp]
    split
    · rename_i h0
      subst h0
      exact siftUpInv_root h inv
    · split
      · rename_i hdom
        exact siftUpInv_done h hole inv hdom
      · rename_i h0 hdom
        refine bubbleUp_minHeap fuel _ _ (by omega) (siftUpInv_swap h hole inv ?_ hdom)
        omega

theorem atI_append_lt (h l2 : List (HeapItem α β)) (k : ℕ) (hk : k < h.length) :
    atI (h ++ l2) k = atI h k := by
  rw [atI, List.getElem?_append_left hk, atI]

theorem simI_append_lt (h l2 : List (HeapItem α β)) (k : ℕ) (hk : k < h.length) :
    simI (h ++ l2) k = simI h k := by
  rw [simI, atI_append_lt h l2 k hk, simI]

theorem siftUpInv_append (h : List (HeapItem α β)) (x : HeapItem α β)
    (hh : IsMinHeapL h) : SiftUpInv (h ++ [x]) h.length := by
  refine ⟨by simp, ?_, ?_⟩
  · intro c hc hclen hch
    have hcl : c < h.length := by
      simp only [List.length_append, List.length_cons, List.length_nil] at hclen
      omega
    rw [simI_append_lt h [x] c hcl, simI_append_lt h [x] _ (by omega)]
    exact hh c hc hcl
  · intro c hc hclen hcp
    simp only [List.length_append, List.length_cons, List.length_nil] at hclen
    omega

end HeapInvariantLemmas

section HeapDownLemmas

variable {α β : Type} [LinearOrder β] [Inhabited α] [Inhabited β]

theorem minChildSel_spec (h : List (HeapItem α β)) (i : ℕ) :
    (minChildSel h i = i ∧
      ∀ c, (c = 2 * i + 1 ∨ c = 2 * i + 2) → c < h.length → simI h i ≤ simI h c)
    ∨ (i < minChildSel h i ∧ minChildSel h i < h.length ∧
       (minChildSel h i - 1) / 2 = i ∧ simI h (minChildSel h i) < simI h i ∧
       ∀ c, (c = 2 * i + 1 ∨ c = 2 * i + 2) → c < h.length →
         simI h (minChildSel h i) ≤ simI h c) := by
  rw [minChildSel]
  by_cases h1 : 2 * i + 1 < h.length ∧ simI h (2 * i + 1) < simI h i
  · rw [if_pos h1]
    by_cases h2 : 2 * i + 2 < h.length ∧ simI h (2 * i + 2) < simI h (2 * i + 1)
    · rw [if_pos h2]
      refine Or.inr ⟨by omega, h2.1, by omega, lt_trans h2.2 h1.2, ?_⟩
      rintro c (rfl | rfl) hclen
      · exact le_of_lt h2.2
      · exact le_refl _
    · rw [if_neg h2]
      refine Or.inr ⟨by omega, h1.1, by omega, h1.2, ?_⟩
      rintro c (rfl | rfl) hclen
      · exact le_refl _
      · exact not_lt.mp (fun hx => h2 ⟨hclen, hx⟩)
  · rw [if_neg h1]
    by_cases h2 : 2 * i + 2 < h.length ∧ simI h (2 * i + 2) < simI h i
    · rw [if_pos h2]
      refine Or.inr ⟨by omega, h2.1, by omega, h2.2, ?_⟩
      rintro c (rfl | rfl) hclen
      · have hnl : ¬ simI h (2 * i + 1) < simI h i := fun hx => h1 ⟨hclen, hx⟩
        exact le_trans (le_of_lt h2.2) (not_lt.mp hnl)
      · exact le_refl _
    · rw [if_neg h2]
      refine Or.inl ⟨rfl, ?_⟩
      rintro c (rfl | rfl) hclen
      · exact not_lt.mp (fun hx => h1 ⟨hclen, hx⟩)
      · exact not_lt.mp (fun hx => h2 ⟨hclen, hx⟩)

theorem siftDownInv_done (h : List (HeapItem α β)) (i : ℕ) (inv : SiftDownInv h i)
    (hdom : ∀ c, (c = 2 * i + 1 ∨ c = 2 * i + 2) → c < h.length →
      simI h i ≤ simI h c) : IsMinHeapL h := by
  intro c hc hclen
  by_cases hpc : (c - 1) / 2 = i
  · rw [hpc]
    exact hdom c (by omega) hclen
  · exact inv.heapEx c hc hclen hpc

theorem siftDownInv_swap (h : List (HeapItem α β)) (i s : ℕ) (inv : SiftDownInv h i)
    (his : i < s) (hslen : s < h.length) (hpar : (s - 1) / 2 = i)
    (hslt : simI h s < simI h i)
    (hmin : ∀ c, (c = 2 * i + 1 ∨ c = 2 * i + 2) → c < h.length →
      simI h s ≤ simI h c) :
    SiftDownInv (swapL h i s) s := by
  have hi : i < h.length := inv.bounded
  have hsw : ∀ k, simI (swapL h i s) k =
      if k = s then simI h i else if k = i then simI h s else simI h k :=
    fun k => simI_swapL h i s k hi hslen
  have hlen : (swapL h i s).length = h.length := length_swapL h _ _
  refine ⟨by rw [hlen]; exact hslen, ?_, ?_⟩
  · intro c hc hclen hcps
    rw [hlen] at hclen
    rw [hsw c, hsw ((c - 1) / 2)]
    by_cases hcs : c = s
    · subst hcs
      rw [if_neg (by omega : ¬ (c - 1) / 2 = c), if_pos hpar, if_pos rfl]
      exact le_of_lt hslt
    · rw [if_neg hcs]
      by_cases hci : c = i
      · rw [hci] at hc hclen ⊢
        rw [if_neg (by omega : ¬ (i - 1) / 2 = s), if_neg (by omega : ¬ (i - 1) / 2 = i),
          if_pos rfl]
        exact inv.bridge hc s (by omega) hslen hpar
      · rw [if_neg hci]
        by_cases hpci : (c - 1) / 2 = i
        · rw [if_neg hcps, if_pos hpci]
          exact hmin c (by omega) hclen
        · rw [if_neg hcps, if_neg hpci]
          exact inv.heapEx c hc hclen hpci
  · intro hs0 c hc hclen hcp
    rw [hlen] at hclen
    rw [hsw c, hsw ((s - 1) / 2)]
    rw [if_neg (by omega : ¬ (s - 1) / 2 = s), if_pos hpar,
      if_neg (by omega : ¬ c = s), if_neg (by omega : ¬ c = i)]
    have := inv.heapEx c hc hclen (by omega)
    rwa [hcp] at this

theorem bubbleDown_minHeap :
    ∀ (fuel : ℕ) (h : List (HeapItem α β)) (i : ℕ), SiftDownInv h i →
      h.length - i ≤ fuel → IsMinHeapL (bubbleDown fuel h i)
  | 0, h, i, inv, hfuel => absurd inv.bounded (by omega)
  | fuel + 1, h, i, inv, hfuel => by
    rw [bubbleDown]
    split
    · rename_i hsel
      rcases minChildSel_spec h i with ⟨_, hdom⟩ | ⟨hlt, _⟩
      · exact siftDownInv_done h i inv hdom
      · exact absurd hsel (by omega)
    · rename_i hsel
      rcases minChildSel_spec h i with ⟨heq, _⟩ | ⟨h1, h2, h3, h4, h5⟩
      · exact absurd heq hsel
      · refine bubbleDown_minHeap fuel _ _ (siftDownInv_swap h i _ inv h1 h2 h3 h4 h5) ?_
        rw [length_swapL]
        omega

end HeapDownLemmas

section HeapPushLemmas

variable {α β : Type} [LinearOrder β] [Inhabited α] [Inhabited β]

theorem root_le_simI (h : List (HeapItem α β)) (hh : IsMinHeapL h) :
    ∀ i, i < h.length → simI h 0 ≤ simI h i := by
  intro i
  induction i using Nat.strong_induction_on with
  | _ i ih =>
    intro hi
    cases Nat.eq_zero_or_pos i with
    | inl h0 =>
      subst h0
      exact le_refl _
    | inr hpos =>
      exact le_trans (ih ((i - 1) / 2) (by omega) (lt_trans (by omega) hi)) (hh i hpos hi)

theorem root_le_of_mem (h : List (HeapItem α β)) (hh : IsMinHeapL h)
    (y : HeapItem α β) (hy : y ∈ h) : simI h 0 ≤ y.similarity := by
  obtain ⟨i, hi, hEq⟩ := List.mem_iff_getElem.mp hy
  have he : simI h i = y.similarity := by
    rw [simI, atI, List.getElem?_eq_getElem hi, Option.getD_some, hEq]
  rw [← he]
  exact root_le_simI h hh i hi

theorem siftDownInv_set0 (h : List (HeapItem α β)) (item : HeapItem α β)
    (hh : IsMinHeapL h) (h0 : 0 < h.length) : SiftDownInv (h.set 0 item) 0 := by
  refine ⟨by simpa using h0, ?_, ?_⟩
  · intro c hc hclen hcp
    rw [List.length_set] at hclen
    have e1 : simI (h.set 0 item) c = simI h c := by
      rw [simI, atI_set_ne h 0 c item (by omega), simI]
    have e2 : simI (h.set 0 item) ((c - 1) / 2) = simI h ((c - 1) / 2) := by
      rw [simI, atI_set_ne h 0 ((c - 1) / 2) item (by omega), simI]
    rw [e1, e2]
    exact hh c hc hclen
  · intro hcon
    exact absurd hcon (lt_irrefl 0)

theorem push_heapOk (q : MinHeap α β) (item : HeapItem α β)
    (hh : IsMinHeapL q.heap) : IsMinHeapL (q.push item).heap := by
  rw [MinHeap.push]
  split
  · exact bubbleUp_minHeap q.heap.length (q.heap ++ [item]) q.heap.length (le_refl _)
      (siftUpInv_append q.heap item hh)
  · split
    · exact hh
    · rename_i root rest heq
      split
      · refine bubbleDown_minHeap q.heap.length _ 0
          (siftDownInv_set0 q.heap item hh (by rw [heq]; simp)) ?_
        rw [List.length_set]
        omega
      · exact hh

theorem push_maxSize (q : MinHeap α β) (item : HeapItem α β) :
    (q.push item).maxSize = q.maxSize := by
  rw [MinHeap.push]
  split
  · rfl
  · split
    · rfl
    · split <;> rfl

theorem push_length (q : MinHeap α β) (item : HeapItem α β) :
    (q.push item).heap.length =
      if q.heap.length < q.maxSize then q.heap.length + 1 else q.heap.length := by
  rw [MinHeap.push]
  split
  · show (bubbleUp q.heap.length (q.heap ++ [item]) q.heap.length).length = _
    rw [length_bubbleUp]
    simp
  · split
    · rfl
    · split
      · show (bubbleDown q.heap.length (q.heap.set 0 item) 0).length = _
        rw [length_bubbleDown, List.length_set]
      · rfl

theorem push_perm_grow (q : MinHeap α β) (item : HeapItem α β)
    (hlt : q.heap.length < q.maxSize) :
    (q.push item).heap.Perm (item :: q.heap) := by
  rw [MinHeap.push, if_pos hlt]
  refine (perm_bubbleUp q.heap.length (q.heap ++ [item]) q.heap.length (by simp)).trans ?_
  exact List.perm_append_singleton item q.heap

theorem push_perm_replace (q : MinHeap α β) (item root : HeapItem α β)
    (t : List (HeapItem α β)) (hge : ¬ q.heap.length < q.maxSize)
    (hq : q.heap = root :: t) (hlt : root.similarity < item.similarity) :
    (q.push item).heap.Perm (item :: t) := by
  rw [MinHeap.push, if_neg hge, hq]
  dsimp only
  rw [if_pos hlt]
  have hset : (root :: t).set 0 item = item :: t := rfl
  rw [hset]
  exact perm_bubbleDown (root :: t).length (item :: t) 0 (by simp)

end HeapPushLemmas

section SearchInvLemmas

variable {α β : Type} [LinearOrder β] [Inhabited α] [Inhabited β]

theorem push_searchInv (seen : List (HeapItem α β)) (q : MinHeap α β)
    (item : HeapItem α β) (inv : SearchInv seen q) :
    SearchInv (seen ++ [item]) (q.push item) := by
  obtain ⟨D, hperm, hbound⟩ := inv.split
  have hlenperm : seen.length = q.heap.length + D.length := by
    have := hperm.length_eq
    simpa using this
  by_cases hlt : q.heap.length < q.maxSize
  · have hsz := inv.sizeEq
    have hD : D = [] := List.eq_nil_of_length_eq_zero (by omega)
    subst hD
    have hpg := push_perm_grow q item hlt
    refine ⟨push_heapOk q item inv.heapOk, ?_, [], ?_, ?_⟩
    · rw [push_length, if_pos hlt, push_maxSize]
      simp only [List.length_append, List.length_cons, List.length_nil]
      omega
    · rw [List.append_nil]
      have h1 : (seen ++ [item]).Perm (item :: seen) := List.perm_append_singleton item seen
      have h2 : seen.Perm q.heap := by simpa using hperm
      exact h1.trans ((h2.cons item).trans hpg.symm)
    · intro d hd
      exact absurd hd (List.not_mem_nil d)
  · rcases hq : q.heap with _ | ⟨root, t⟩
    · have hpush : q.push item = q := by
        rw [MinHeap.push, if_neg hlt, hq]
      rw [hpush]
      have hm : q.maxSize = 0 := by
        rw [hq] at hlt
        simp at hlt
        omega
      refine ⟨inv.heapOk, ?_, D ++ [item], ?_, ?_⟩
      · rw [hq, hm]
        simp
      · rw [hq]
        have := hperm.append_right [item]
        rw [hq] at this
        simpa using this
      · intro d hd y hy
        rw [hq] at hy
        exact absurd hy (List.not_mem_nil y)
    · have hroot_le : ∀ z ∈ q.heap, root.similarity ≤ z.similarity := by
        intro z hz
        have h0 : simI q.heap 0 = root.similarity := by
          rw [hq]
          simp [simI, atI]
        have hr := root_le_of_mem q.heap inv.heapOk z hz
        rwa [h0] at hr
      by_cases hrep : root.similarity < item.similarity
      · have hpp := push_perm_replace q item root t hlt hq hrep
        refine ⟨push_heapOk q item inv.heapOk, ?_, D ++ [root], ?_, ?_⟩
        · rw [push_length, if_neg hlt, push_maxSize]
          have h1 := inv.sizeEq
          simp only [List.length_append, List.length_cons, List.length_nil]
          omega
        · have hstep : (seen ++ [item]).Perm (((root :: t) ++ D) ++ [item]) := by
            have := hperm.append_right [item]
            rwa [hq] at this
          refine hstep.trans ?_
          have c1 : (((root :: t) ++ D) ++ [item]).Perm (item :: (root :: (t ++ D))) :=
            List.perm_append_singleton item ((root :: t) ++ D)
          have c2 : (root :: (t ++ D)).Perm ((t ++ D) ++ [root]) :=
            (List.perm_append_singleton root (t ++ D)).symm
          refine c1.trans ?_
          refine ((c2.cons item).trans ?_).trans ((hpp.append_right (D ++ [root])).symm)
          simp [List.append_assoc]
        · intro d hd y hy
          have hy' : y ∈ item :: t := hpp.mem_iff.mp hy
          rcases List.mem_append.mp hd with hdD | hdr
          · rcases List.mem_cons.mp hy' with rfl | hyt
            · have hb : d.similarity ≤ root.similarity :=
                hbound d hdD root (by rw [hq]; exact List.mem_cons_self root t)
              exact le_trans hb (le_of_lt hrep)
            · exact hbound d hdD y (by rw [hq]; exact List.mem_cons_of_mem root hyt)
          · have hdr' : d = root := by simpa using hdr
            rw [hdr']
            rcases List.mem_cons.mp hy' with rfl | hyt
            · exact le_of_lt hrep
            · exact hroot_le y (by rw [hq]; exact List.mem_cons_of_mem root hyt)
      · have hpush : q.push item = q := by
          rw [MinHeap.push, if_neg hlt, hq]
          dsimp only
          rw [if_neg hrep]
        rw [hpush]
        refine ⟨inv.heapOk, ?_, D ++ [item], ?_, ?_⟩
        · have h1 := inv.sizeEq
          have h2 := not_lt.mp hlt
          simp only [List.length_append, List.length_cons, List.length_nil]
          omega
        · have := hperm.append_right [item]
          simpa [List.append_assoc] using this
        · intro d hd y hy
          rcases List.mem_append.mp hd with hdD | hdi
          · exact hbound d hdD y hy
          · have hdi' : d = item := by simpa using hdi
            subst hdi'
            exact le_trans (not_lt.mp hrep) (hroot_le y hy)

end SearchInvLemmas

section SearchFoldLemmas

variable {α β : Type} [LinearOrder β] [Inhabited α] [Inhabited β]

theorem pushAll_searchInv :
    ∀ (items seen : List (HeapItem α β)) (q : MinHeap α β),
      SearchInv seen q → SearchInv (seen ++ items) (items.foldl MinHeap.push q)
  | [], seen, q, inv => by simpa using inv
  | x :: t, seen, q, inv => by
    have h1 := push_searchInv seen q x inv
    have h2 := pushAll_searchInv t (seen ++ [x]) (q.push x) h1
    simpa [List.append_assoc] using h2

theorem searchInv_nil (m : ℕ) : SearchInv ([] : List (HeapItem α β)) ⟨[], m⟩ := by
  refine ⟨?_, by simp, [], by simp, ?_⟩
  · intro c hc hclen
    simp at hclen
  · intro d hd
    exact absurd hd (List.not_mem_nil d)

theorem chunksOfBatch_flatten {μ : Type} :
    ∀ (fuel : ℕ) (l : List μ), l.length ≤ fuel → (chunksOfBatch fuel l).flatten = l
  | 0, l, hf => by
    have hl : l = [] := List.eq_nil_of_length_eq_zero (by omega)
    subst hl
    rfl
  | fuel + 1, [], _ => rfl
  | fuel + 1, x :: t, hf => by
    rw [chunksOfBatch, List.flatten_cons,
      chunksOfBatch_flatten fuel ((x :: t).drop BATCH_SIZE) ?_,
      List.take_append_drop]
    rw [List.length_drop]
    simp only [List.length_cons] at hf ⊢
    have hB : 0 < BATCH_SIZE := by decide
    omega

theorem foldl_chunks_push :
    ∀ (cs : List (List (HeapItem α β))) (q : MinHeap α β),
      cs.foldl (fun q' b => b.foldl MinHeap.push q') q = cs.flatten.foldl MinHeap.push q
  | [], q => rfl
  | b :: cs, q => by
    rw [List.foldl_cons, List.flatten_cons, List.foldl_append]
    exact foldl_chunks_push cs _

end SearchFoldLemmas


section TopKLemmas

variable {α β γ : Type} [LinearOrder β] [Inhabited α] [Inhabited β]

theorem foldl_push_maxSize :
    ∀ (items : List (HeapItem α β)) (q : MinHeap α β),
      (items.foldl MinHeap.push q).maxSize = q.maxSize
  | [], q => rfl
  | x :: t, q => by
    rw [List.foldl_cons, foldl_push_maxSize t (q.push x), push_maxSize]

theorem searchSimilar_topK (cosSim : List γ → List γ → β) (queryEmbedding : List γ)
    (records : List (EmbeddingEntry α γ)) (sessionId : String) (k : ℕ) :
    ∃ rest,
      (sessionItems cosSim queryEmbedding records sessionId).Perm
        (searchSimilar cosSim queryEmbedding records sessionId k ++ rest) ∧
      (searchSimilar cosSim queryEmbedding records sessionId k).length =
        min k (sessionItems cosSim queryEmbedding records sessionId).length ∧
      List.Sorted (fun a b => b.similarity ≤ a.similarity)
        (searchSimilar cosSim queryEmbedding records sessionId k) ∧
      ∀ x ∈ rest, ∀ y ∈ searchSimilar cosSim queryEmbedding records sessionId k,
        x.similarity ≤ y.similarity := by
  simp only [searchSimilar]
  rw [foldl_chunks_push, chunksOfBatch_flatten _ _ (le_refl _)]
  set items := sessionItems cosSim queryEmbedding records sessionId with hitems
  set Q : MinHeap (EmbeddingEntry α γ) β := items.foldl MinHeap.push ⟨[], k * 2⟩ with hQ
  have hinv : SearchInv items Q := by
    have h0 := pushAll_searchInv items [] ⟨[], k * 2⟩ (searchInv_nil (k * 2))
    simpa [hQ] using h0
  obtain ⟨D, hperm, hbound⟩ := hinv.split
  have hmax : Q.maxSize = k * 2 := foldl_push_maxSize items _
  have hS : Q.getSorted.Perm Q.heap := List.perm_insertionSort _ _
  have hSsorted : List.Sorted (fun a b => b.similarity ≤ a.similarity) Q.getSorted :=
    List.sorted_insertionSort _ _
  refine ⟨Q.getSorted.drop k ++ D, ?_, ?_, ?_, ?_⟩
  · refine hperm.trans ?_
    refine (hS.symm.append_right D).trans ?_
    have he : Q.getSorted ++ D = Q.getSorted.take k ++ (Q.getSorted.drop k ++ D) := by
      rw [← List.append_assoc, List.take_append_drop]
    rw [he]
  · rw [List.length_take, hS.length_eq, hinv.sizeEq, hmax]
    omega
  · exact List.Pairwise.sublist (List.take_sublist k _) hSsorted
  · intro x hx y hy
    rcases List.mem_append.mp hx with hxd | hxD
    · have hpw := hSsorted
      rw [← List.take_append_drop k Q.getSorted] at hpw
      exact (List.pairwise_append.mp hpw).2.2 y hy x hxd
    · have hyh : y ∈ Q.heap := hS.mem_iff.mp (List.mem_of_mem_take hy)
      exact hbound x hxD y hyh

end TopKLemmas

/-! ## Claim C4: top-K search correctness -/

/-- **C4.** Top-K search correctness: for every session, query vector and
`k > 0`, `searchSimilar` returns exactly the `k` highest-cosine-similarity
indexed vectors for that session (ties broken arbitrarily), computed through
the bounded min-heap of capacity `k * 2` fed in streaming batches of 1000
records: the result is a subcollection of the session's scored records, of
size exactly `min k n` where `n` is the number of scored records, sorted by
descending similarity, and every record left out has similarity at most that
of every record returned.  (`k > 0` restricts to the inputs on which the JS
code is defined: with `limit = 0` the JS heap reads `heap[0]` of an empty
array and throws.) -/
theorem c4_topk_search (records : List (EmbeddingEntry RequestData ℝ))
    (queryEmbedding : List ℝ) (sessionId : String) (k : ℕ) (hk : 0 < k) :
    ∃ rest,
      (sessionItems cosineSimilarity queryEmbedding records sessionId).Perm
        (searchSimilar cosineSimilarity queryEmbedding records sessionId k ++ rest) ∧
      (searchSimilar cosineSimilarity queryEmbedding records sessionId k).length =
        min k (sessionItems cosineSimilarity queryEmbedding records sessionId).length ∧
      List.Sorted (fun a b => b.similarity ≤ a.similarity)
        (searchSimilar cosineSimilarity queryEmbedding records sessionId k) ∧
      ∀ x ∈ rest, ∀ y ∈ searchSimilar cosineSimilarity queryEmbedding records sessionId k,
        x.similarity ≤ y.similarity :=
  searchSimilar_topK cosineSimilarity queryEmbedding records sessionId k

/-- Witness for C4: the hypothesis `0 < k` is satisfiable, and the theorem
applies at a concrete instance. -/
theorem c4_witness :
    0 < 1 ∧ ∃ rest,
      (sessionItems cosineSimilarity [] ([] : List (EmbeddingEntry RequestData ℝ)) "s").Perm
        (searchSimilar cosineSimilarity [] [] "s" 1 ++ rest) ∧
      (searchSimilar cosineSimilarity [] ([] : List (EmbeddingEntry RequestData ℝ)) "s" 1).length =
        min 1 (sessionItems cosineSimilarity [] ([] : List (EmbeddingEntry RequestData ℝ)) "s").length ∧
      List.Sorted (fun a b => b.similarity ≤ a.similarity)
        (searchSimilar cosineSimilarity [] ([] : List (EmbeddingEntry RequestData ℝ)) "s" 1) ∧
      ∀ x ∈ rest, ∀ y ∈ searchSimilar cosineSimilarity [] ([] : List (EmbeddingEntry RequestData ℝ)) "s" 1,
        x.similarity ≤ y.similarity :=
  ⟨by decide, c4_topk_search [] [] "s" 1 (by decide)⟩
